import Mathlib

/-!
Verification of the package-management core of the `toolcage` repository
(`sysbak/src/pkg_mgmt.rs` and `sysbak/src/pkg_get.rs`).

The Rust code shells out to external package managers.  We embed it shallowly:
every process spawn is an oracle `Exec : List String → Except String POutput`
mapping a command line to either a spawn error (`.error`) or the process
outcome (`.ok`, carrying the exit-status success bit and captured stdout).
JSON values (`serde_json::Value`) are embedded as the inductive `JVal`
(numbers never occur in these documents and are omitted); `serde_json::Map`
is embedded as an association list.  All definitions are computable and
follow the Rust source line by line.
-/

namespace Sysbak

/-- Result of running one external command: exit-status success bit and
captured stdout (models the fields of `std::process::Output` the code reads). -/
structure POutput where
  success : Bool
  stdout : String
deriving Repr, DecidableEq

/-- Oracle for process spawning: a command line (program followed by its
arguments) is mapped to a spawn failure (`.error`, models an `io::Error`
from `Command::output`/`status`) or the process outcome. -/
def Exec : Type := List String → Except String POutput

/-- The double-quote character (written via its code point). -/
def qu : Char := Char.ofNat 34

/-- The backslash character. -/
def bs : Char := Char.ofNat 92

/-- The opening-brace character. -/
def lbr : Char := Char.ofNat 123

/-- The closing-brace character. -/
def rbr : Char := Char.ofNat 125

mutual

/-- Embedding of the `serde_json::Value`s occurring in this program
(objects, arrays, strings, booleans, null; numbers never occur). -/
inductive JVal where
  | null : JVal
  | bool (b : Bool) : JVal
  | str (s : String) : JVal
  | arr (elems : JArr) : JVal
  | obj (members : JObj) : JVal

/-- A JSON array (list of values). -/
inductive JArr where
  | nil : JArr
  | cons (v : JVal) (rest : JArr) : JArr

/-- A JSON object (association list of key/value pairs, in document order;
`serde_json::Map` is a `BTreeMap`, but only key lookup and per-key values
are observed by the code under verification). -/
inductive JObj where
  | nil : JObj
  | cons (k : String) (v : JVal) (rest : JObj) : JObj

end

/-- Convert a JSON object to an association list. -/
def JObj.toList : JObj → List (String × JVal)
  | .nil => []
  | .cons k v rest => (k, v) :: rest.toList

/-- Build a JSON object from an association list. -/
def JObj.ofList : List (String × JVal) → JObj
  | [] => .nil
  | (k, v) :: rest => .cons k v (JObj.ofList rest)

/-- Build a JSON array from a list of values. -/
def JArr.ofList : List JVal → JArr
  | [] => .nil
  | v :: rest => .cons v (JArr.ofList rest)

/-- Models `Value::as_str`. -/
def strOf? : JVal → Option String
  | .str s => some s
  | _ => none

/-- Models `Value::as_array`. -/
def arrOf? : JVal → Option JArr
  | .arr a => some a
  | _ => none

/-- Models `Value::as_bool`. -/
def boolOf? : JVal → Option Bool
  | .bool b => some b
  | _ => none

/-- Insert into an association list, replacing the value of an existing key
(models `serde_json::Map::insert`; the map's key-sorted iteration order is
never observed through this model's uses). -/
def insertAL (al : List (String × Bool)) (k : String) (v : Bool) : List (String × Bool) :=
  match al with
  | [] => [(k, v)]
  | (k', v') :: rest => if k' = k then (k, v) :: rest else (k', v') :: insertAL rest k v

/-- The static manager registry of `detect_package_managers`
(`pkg_mgmt.rs` lines 14-22): pairs of manager name and probe binary. -/
def managersRegistry : List (String × String) :=
  [("apt", "apt"),
   ("yum_dnf", "dnf"),
   ("portage", "emerge"),
   ("pacman", "pacman"),
   ("flatpak", "flatpak"),
   ("snap", "snap"),
   ("xbps", "xbps-query")]

/-- One probe of the detector: `Command::new(command).arg("--version").output()
.map_or(false, |output| output.status.success())` (`pkg_mgmt.rs` lines 25-28). -/
def probeManager (exec : Exec) (command : String) : Bool :=
  match exec [command, "--version"] with
  | .ok o => o.success
  | .error _ => false

/-- Embedding of `detect_package_managers` (`pkg_mgmt.rs` lines 9-42): for each
registry entry, probe the binary with `--version`; availability is the success
of that probe, with a spawn failure coerced to `false` by `map_or`.  The Rust
function wraps the resulting map in a JSON document
`{"detected_package_managers": ...}` which every caller immediately parses
back; that serialize/reparse pair is the identity on this data (a map of
booleans cannot fail to serialize) and is embedded as such, keeping the
`io::Result` shape of the return type. -/
def detect_package_managers (exec : Exec) : Except String (List (String × Bool)) :=
  .ok (managersRegistry.foldl
    (fun acc nc => insertAL acc nc.1 (probeManager exec nc.2)) [])

/-- The binary of the per-manager existence-check command: first `match` of
`is_package_installed` (`pkg_mgmt.rs` lines 173-182); an unknown manager has
none (the Rust code returns `Ok(false)` there). -/
def checkProgram : String → Option String
  | "apt" => some "dpkg"
  | "yum_dnf" => some "dnf"
  | "pacman" => some "pacman"
  | "flatpak" => some "flatpak"
  | "snap" => some "snap"
  | "portage" => some "qlist"
  | "xbps" => some "xbps-query"
  | _ => none

/-- The arguments of the per-manager existence-check command: second `match`
of `is_package_installed` (`pkg_mgmt.rs` lines 184-193). -/
def checkArgs (manager package : String) : List String :=
  match manager with
  | "apt" => ["-s", package]
  | "yum_dnf" => ["list", "installed", package]
  | "pacman" => ["-Q", package]
  | "flatpak" => ["info", package]
  | "snap" => ["list", package]
  | "portage" => ["-I", package]
  | "xbps" => ["-S", package]
  | _ => []

/-- Embedding of `is_package_installed` (`pkg_mgmt.rs` lines 172-197): unknown
manager yields `Ok(false)`; otherwise the check command is spawned and the
`?` on `cmd.args(&args).output()?` propagates a spawn failure as an error,
while a successful spawn yields the exit status' success bit. -/
def is_package_installed (exec : Exec) (manager package : String) : Except String Bool :=
  match checkProgram manager with
  | none => .ok false
  | some prog =>
    match exec (prog :: checkArgs manager package) with
    | .error e => .error e
    | .ok o => .ok o.success

/-- The install command binary and elevation flag: first `match` of
`install_single_package` (`pkg_mgmt.rs` lines 202-211). -/
def installCommandSudo : String → Option (String × Bool)
  | "apt" => some ("apt", true)
  | "yum_dnf" => some ("dnf", true)
  | "pacman" => some ("pacman", true)
  | "flatpak" => some ("flatpak", false)
  | "snap" => some ("snap", true)
  | "portage" => some ("emerge", true)
  | "xbps" => some ("xbps-install", true)
  | _ => none

/-- The install command arguments: second `match` of `install_single_package`
(`pkg_mgmt.rs` lines 221-229). -/
def installArgs (manager package : String) : List String :=
  match manager with
  | "apt" => ["install", "-y", package]
  | "yum_dnf" => ["install", "-y", package]
  | "pacman" => ["-S", "--noconfirm", package]
  | "flatpak" => ["install", "-y", package]
  | "snap" => ["install", package]
  | "portage" => [package]
  | "xbps" => ["-S", "-y", package]
  | _ => []

/-- The full command line `install_single_package` runs for a known manager:
the binary, wrapped through `sudo` when the elevation flag is set, followed
by the per-manager arguments (`pkg_mgmt.rs` lines 213-231). -/
def installCmdline (command : String) (elevate : Bool) (manager package : String) : List String :=
  (if elevate then ["sudo", command] else [command]) ++ installArgs manager package

/-- Embedding of `install_single_package` (`pkg_mgmt.rs` lines 201-251):
unknown manager returns `false`; otherwise the install command line is run
(stdout/stderr suppressed) and the result is `true` exactly for a successful
spawn with successful exit status — both a spawn error (`Err(e)` arm) and a
non-zero exit report `false`, never an error. -/
def install_single_package (exec : Exec) (manager package : String) : Bool :=
  match installCommandSudo manager with
  | none => false
  | some (command, elevate) =>
    match exec (installCmdline command elevate manager package) with
    | .ok exitStatus => exitStatus.success
    | .error _ => false

/-- The outcome of one reconciliation run: the three report sequences of
`install_packages` (its `already_installed`, `newly_installed`,
`failed_to_install` vectors, kept as (package, manager) pairs; the Rust code
renders each pair as the string `"package (manager)"` when printing), plus
two instrumentation traces recording, in order, the (package, manager) pairs
for which `is_package_installed` respectively `install_single_package` was
invoked.  The traces are not data of the Rust function; they only make the
"which commands were invoked" part of the specification statable. -/
structure RunOut where
  alreadyInstalled : List (String × String)
  newlyInstalled : List (String × String)
  failedInstall : List (String × String)
  checkedTrace : List (String × String)
  installTrace : List (String × String)
deriving Repr, DecidableEq

/-- The empty run outcome. -/
def RunOut.empty : RunOut := ⟨[], [], [], [], []⟩

/-- Concatenate two run outcomes componentwise (sequential composition of
two stretches of the reconciliation loop). -/
def RunOut.append (a b : RunOut) : RunOut :=
  ⟨a.alreadyInstalled ++ b.alreadyInstalled,
   a.newlyInstalled ++ b.newlyInstalled,
   a.failedInstall ++ b.failedInstall,
   a.checkedTrace ++ b.checkedTrace,
   a.installTrace ++ b.installTrace⟩

/-- Availability lookup of the reconciler:
`detected_managers_map.get(manager_name).and_then(|v| v.as_bool()).unwrap_or(false)`
(`pkg_mgmt.rs` line 112); the detector's map always holds booleans, so
`and_then(as_bool)` is the identity on found values. -/
def lookupAvail (avail : List (String × Bool)) (m : String) : Bool :=
  (avail.lookup m).getD false

/-- The inner package loop of `install_packages` (`pkg_mgmt.rs` lines
116-131) for one manager's package array: a non-string element is skipped
(`if let Some(package_name) = package_value.as_str()`); a string element is
checked via `is_package_installed` — whose error aborts the whole run through
`?` — and classified into already / newly / failed by check result and
`install_single_package` result. -/
def processPackages (check : String → String → Except String Bool)
    (install : String → String → Bool) (m : String) : JArr → Except String RunOut
  | .nil => .ok RunOut.empty
  | .cons v vs =>
    match strOf? v with
    | none => processPackages check install m vs
    | some p =>
      match check m p with
      | .error e => .error e
      | .ok b =>
        match processPackages check install m vs with
        | .error e => .error e
        | .ok rest =>
          if b then
            .ok { rest with
                  alreadyInstalled := (p, m) :: rest.alreadyInstalled,
                  checkedTrace := (p, m) :: rest.checkedTrace }
          else if install m p then
            .ok { rest with
                  newlyInstalled := (p, m) :: rest.newlyInstalled,
                  checkedTrace := (p, m) :: rest.checkedTrace,
                  installTrace := (p, m) :: rest.installTrace }
          else
            .ok { rest with
                  failedInstall := (p, m) :: rest.failedInstall,
                  checkedTrace := (p, m) :: rest.checkedTrace,
                  installTrace := (p, m) :: rest.installTrace }

/-- One catalog entry of the reconciler loop (`pkg_mgmt.rs` lines 111-136):
an unavailable manager is skipped entirely; an available manager's value is
processed only when it is an array (`if let Some(packages) = as_array`),
otherwise skipped. -/
def processEntry (check : String → String → Except String Bool)
    (install : String → String → Bool) (avail : List (String × Bool))
    (m : String) (v : JVal) : Except String RunOut :=
  if lookupAvail avail m then
    match arrOf? v with
    | some vs => processPackages check install m vs
    | none => .ok RunOut.empty
  else .ok RunOut.empty

/-- The outer loop of `install_packages` over the parsed catalog object
(`pkg_mgmt.rs` lines 111-137), in document order. -/
def processEntries (check : String → String → Except String Bool)
    (install : String → String → Bool) (avail : List (String × Bool)) :
    List (String × JVal) → Except String RunOut
  | [] => .ok RunOut.empty
  | (m, v) :: rest =>
    match processEntry check install avail m v with
    | .error e => .error e
    | .ok out =>
      match processEntries check install avail rest with
      | .error e => .error e
      | .ok outs => .ok (out.append outs)

/-! ## JSON serialization

`save_package_list` persists the pretty-printed JSON produced by
`serde_json::to_string_pretty`, and `install_packages` reads it back through
`serde_json::from_str`.  The two functions below embed that external pair for
the values of `JVal`, following serde_json's documented behaviour: the
pretty printer indents with two spaces per nesting level and escapes, inside
strings, the double quote, the backslash, and control characters below 0x20
(the named escapes for backspace, tab, newline, form feed and carriage
return, and the form backslash-u00XX otherwise); the reader is a
whitespace-insensitive recursive-descent parser for objects, arrays,
strings (with those escapes), booleans and null. -/

/-- The lowercase hexadecimal digit for a value below 16. -/
def hexDigit (n : Nat) : Char :=
  if n < 10 then Char.ofNat (48 + n) else Char.ofNat (87 + n)

/-- Escape one character of a JSON string, serde_json style. -/
def escChar (c : Char) : List Char :=
  if c = qu then [bs, qu]
  else if c = bs then [bs, bs]
  else if c = Char.ofNat 8 then [bs, 'b']
  else if c = Char.ofNat 9 then [bs, 't']
  else if c = Char.ofNat 10 then [bs, 'n']
  else if c = Char.ofNat 12 then [bs, 'f']
  else if c = Char.ofNat 13 then [bs, 'r']
  else if c.toNat < 32 then
    [bs, 'u', '0', '0', hexDigit (c.toNat / 16), hexDigit (c.toNat % 16)]
  else [c]

/-- Escape every character of a JSON string body. -/
def escList : List Char → List Char
  | [] => []
  | c :: rest => escChar c ++ escList rest

/-- Indentation: `n` spaces. -/
def sp (n : Nat) : List Char := List.replicate n ' '

mutual

/-- Pretty-print a JSON value at nesting depth `ind`
(models `serde_json::to_string_pretty`). -/
def ppVal (ind : Nat) : JVal → List Char
  | .null => String.data "null"
  | .bool true => String.data "true"
  | .bool false => String.data "false"
  | .str s => qu :: escList s.data ++ [qu]
  | .arr .nil => ['[', ']']
  | .arr (.cons v vs) =>
    '[' :: '\n' :: ppElems (ind + 1) v vs ++ '\n' :: sp (2 * ind) ++ [']']
  | .obj .nil => [lbr, rbr]
  | .obj (.cons k v kvs) =>
    lbr :: '\n' :: ppMembers (ind + 1) k v kvs ++ '\n' :: sp (2 * ind) ++ [rbr]
  termination_by v => sizeOf v
  decreasing_by all_goals (simp; try omega)

/-- Pretty-print the elements of a nonempty JSON array, one per line,
separated by commas. -/
def ppElems (ind : Nat) (v : JVal) : JArr → List Char
  | .nil => sp (2 * ind) ++ ppVal ind v
  | .cons w ws => sp (2 * ind) ++ ppVal ind v ++ ',' :: '\n' :: ppElems ind w ws
  termination_by vs => 1 + sizeOf v + sizeOf vs
  decreasing_by all_goals (simp; try omega)

/-- Pretty-print the members of a nonempty JSON object, one per line,
separated by commas. -/
def ppMembers (ind : Nat) (k : String) (v : JVal) : JObj → List Char
  | .nil => sp (2 * ind) ++ qu :: escList k.data ++ qu :: ':' :: ' ' :: ppVal ind v
  | .cons k2 v2 kvs =>
    sp (2 * ind) ++ qu :: escList k.data ++ qu :: ':' :: ' ' :: ppVal ind v ++
      ',' :: '\n' :: ppMembers ind k2 v2 kvs
  termination_by kvs => 1 + sizeOf v + sizeOf kvs
  decreasing_by all_goals (simp; try omega)

end

/-- Models `serde_json::to_string_pretty` as a `String`-valued function. -/
def jsonPretty (v : JVal) : String := ⟨ppVal 0 v⟩

/-- JSON insignificant whitespace (RFC 8259): space, tab, line feed,
carriage return. -/
def isJsonWs (c : Char) : Bool :=
  c = ' ' || c = Char.ofNat 9 || c = Char.ofNat 10 || c = Char.ofNat 13

/-- Skip insignificant whitespace. -/
def skipWs (cs : List Char) : List Char := cs.dropWhile isJsonWs

/-- The value of a hexadecimal digit character, if it is one. -/
def hexVal? (c : Char) : Option Nat :=
  if 48 ≤ c.toNat ∧ c.toNat ≤ 57 then some (c.toNat - 48)
  else if 97 ≤ c.toNat ∧ c.toNat ≤ 102 then some (c.toNat - 87)
  else if 65 ≤ c.toNat ∧ c.toNat ≤ 70 then some (c.toNat - 55)
  else none

mutual

/-- Parse the body of a JSON string (the opening quote already consumed),
decoding escapes; returns the decoded characters and the input after the
closing quote. -/
def parseStringBody : List Char → Option (List Char × List Char)
  | [] => none
  | c :: rest =>
    if c = qu then some ([], rest)
    else if c = bs then parseEscape rest
    else (parseStringBody rest).map (fun x => (c :: x.1, x.2))

/-- Parse one escape sequence (the backslash already consumed) and the
remainder of the string body. -/
def parseEscape : List Char → Option (List Char × List Char)
  | [] => none
  | e :: rest =>
    if e = qu then (parseStringBody rest).map (fun x => (qu :: x.1, x.2))
    else if e = bs then (parseStringBody rest).map (fun x => (bs :: x.1, x.2))
    else if e = '/' then (parseStringBody rest).map (fun x => ('/' :: x.1, x.2))
    else if e = 'b' then (parseStringBody rest).map (fun x => (Char.ofNat 8 :: x.1, x.2))
    else if e = 't' then (parseStringBody rest).map (fun x => (Char.ofNat 9 :: x.1, x.2))
    else if e = 'n' then (parseStringBody rest).map (fun x => (Char.ofNat 10 :: x.1, x.2))
    else if e = 'f' then (parseStringBody rest).map (fun x => (Char.ofNat 12 :: x.1, x.2))
    else if e = 'r' then (parseStringBody rest).map (fun x => (Char.ofNat 13 :: x.1, x.2))
    else if e = 'u' then parseUEscape rest
    else none

/-- Parse the four hex digits of a backslash-u escape and the remainder of
the string body. -/
def parseUEscape : List Char → Option (List Char × List Char)
  | h1 :: h2 :: h3 :: h4 :: rest =>
    match hexVal? h1, hexVal? h2, hexVal? h3, hexVal? h4 with
    | some v1, some v2, some v3, some v4 =>
      (parseStringBody rest).map
        (fun x => (Char.ofNat (((v1 * 16 + v2) * 16 + v3) * 16 + v4) :: x.1, x.2))
    | _, _, _, _ => none
  | _ => none

end

/-- Recognize the tail of the literal `true` (after its first character). -/
def parseLitTrue : List Char → Option (JVal × List Char)
  | 'r' :: 'u' :: 'e' :: rest => some (.bool true, rest)
  | _ => none

/-- Recognize the tail of the literal `false` (after its first character). -/
def parseLitFalse : List Char → Option (JVal × List Char)
  | 'a' :: 'l' :: 's' :: 'e' :: rest => some (.bool false, rest)
  | _ => none

/-- Recognize the tail of the literal `null` (after its first character). -/
def parseLitNull : List Char → Option (JVal × List Char)
  | 'u' :: 'l' :: 'l' :: rest => some (.null, rest)
  | _ => none

mutual

/-- Parse one JSON value (fuel-indexed recursive descent;
models `serde_json::from_str`). -/
def parseVal : Nat → List Char → Option (JVal × List Char)
  | 0, _ => none
  | fuel + 1, cs => parseValCore fuel (skipWs cs)

/-- Dispatch on the first significant character of a value. -/
def parseValCore : Nat → List Char → Option (JVal × List Char)
  | 0, _ => none
  | _ + 1, [] => none
  | fuel + 1, c :: rest =>
      if c = lbr then parseObjBody fuel (skipWs rest)
      else if c = '[' then parseArrBody fuel (skipWs rest)
      else if c = qu then (parseStringBody rest).map (fun x => (JVal.str ⟨x.1⟩, x.2))
      else if c = 't' then parseLitTrue rest
      else if c = 'f' then parseLitFalse rest
      else if c = 'n' then parseLitNull rest
      else none

/-- Parse the inside of an object (after the opening brace): either the
immediate closing brace of an empty object, or its members. -/
def parseObjBody : Nat → List Char → Option (JVal × List Char)
  | 0, _ => none
  | _ + 1, [] => none
  | fuel + 1, d :: rest =>
      if d = rbr then some (.obj .nil, rest)
      else (parseMembers fuel (d :: rest)).map (fun x => (JVal.obj x.1, x.2))

/-- Parse the inside of an array (after the opening bracket): either the
immediate closing bracket of an empty array, or its elements. -/
def parseArrBody : Nat → List Char → Option (JVal × List Char)
  | 0, _ => none
  | _ + 1, [] => none
  | fuel + 1, d :: rest =>
      if d = ']' then some (.arr .nil, rest)
      else (parseElems fuel (d :: rest)).map (fun x => (JVal.arr x.1, x.2))

/-- Parse the elements of a nonempty JSON array, up to and including the
closing bracket. -/
def parseElems : Nat → List Char → Option (JArr × List Char)
  | 0, _ => none
  | fuel + 1, cs =>
    (parseVal fuel cs).bind (fun vr => parseElemsTail fuel vr.1 (skipWs vr.2))

/-- After one array element: a comma continues the element list, a closing
bracket ends it. -/
def parseElemsTail : Nat → JVal → List Char → Option (JArr × List Char)
  | 0, _, _ => none
  | _ + 1, _, [] => none
  | fuel + 1, v, c :: rest =>
      if c = ',' then (parseElems fuel rest).map (fun x => (JArr.cons v x.1, x.2))
      else if c = ']' then some (.cons v .nil, rest)
      else none

/-- Parse the members of a nonempty JSON object, up to and including the
closing brace. -/
def parseMembers : Nat → List Char → Option (JObj × List Char)
  | 0, _ => none
  | fuel + 1, cs => parseMembersKey fuel (skipWs cs)

/-- Parse one member's key string. -/
def parseMembersKey : Nat → List Char → Option (JObj × List Char)
  | 0, _ => none
  | _ + 1, [] => none
  | fuel + 1, c :: rest =>
      if c = qu then
        (parseStringBody rest).bind (fun kr => parseMembersColon fuel kr.1 (skipWs kr.2))
      else none

/-- Parse the colon after a member's key, then its value. -/
def parseMembersColon : Nat → List Char → List Char → Option (JObj × List Char)
  | 0, _, _ => none
  | _ + 1, _, [] => none
  | fuel + 1, k, c :: rest =>
      if c = ':' then
        (parseVal fuel rest).bind (fun vr => parseMembersTail fuel k vr.1 (skipWs vr.2))
      else none

/-- After one object member: a comma continues the member list, a closing
brace ends it. -/
def parseMembersTail : Nat → List Char → JVal → List Char → Option (JObj × List Char)
  | 0, _, _, _ => none
  | _ + 1, _, _, [] => none
  | fuel + 1, k, v, c :: rest =>
      if c = ',' then (parseMembers fuel rest).map (fun x => (JObj.cons ⟨k⟩ v x.1, x.2))
      else if c = rbr then some (.cons ⟨k⟩ v .nil, rest)
      else none

end

/-- Models `serde_json::from_str::<Value>` on a whole document: parse one value and
require only insignificant whitespace after it.  The fuel (input length plus
one) is ample for every document this program writes or reads back
(`parse_jsonPretty` below). -/
def parseJsonText (s : String) : Option JVal :=
  match parseVal (s.data.length + 1) s.data with
  | some (v, rest) => if (skipWs rest).isEmpty then some v else none
  | none => none

/-! ## Rust string primitives

`pkg_get.rs` uses `str::lines`, `str::split`, `str::trim`, `str::contains`
and `str::is_empty`; they are embedded below on `String.data`. -/

/-- Rust `char::is_whitespace`: the Unicode `White_Space` property. -/
def isRustWs (c : Char) : Bool :=
  c.toNat = 9 || c.toNat = 10 || c.toNat = 11 || c.toNat = 12 || c.toNat = 13 ||
  c.toNat = 32 || c.toNat = 133 || c.toNat = 160 || c.toNat = 5760 ||
  (8192 ≤ c.toNat && c.toNat ≤ 8202) || c.toNat = 8232 || c.toNat = 8233 ||
  c.toNat = 8239 || c.toNat = 8287 || c.toNat = 12288

/-- Rust `str::trim`: strip leading and trailing whitespace. -/
def rustTrim (s : String) : String :=
  ⟨((s.data.dropWhile isRustWs).reverse.dropWhile isRustWs).reverse⟩

/-- Helper of `rustLines`: `acc` holds the current line reversed; a line
feed ends the line, stripping one carriage return that immediately
precedes it. -/
def rustLinesGo : List Char → List Char → List String
  | [], [] => []
  | [], acc => [⟨acc.reverse⟩]
  | c :: rest, acc =>
    if c = Char.ofNat 10 then
      (match acc with
       | d :: acc' => if d = Char.ofNat 13 then (⟨acc'.reverse⟩ : String) else ⟨acc.reverse⟩
       | [] => (⟨[]⟩ : String)) :: rustLinesGo rest []
    else rustLinesGo rest (c :: acc)

/-- Rust `str::lines`: split at line feeds, stripping a carriage return
before each line feed; a final line without terminator is kept, a trailing
terminator produces no empty final line. -/
def rustLines (s : String) : List String := rustLinesGo s.data []

/-- Rust `str::split(sep)` (all fields, empties included). -/
def splitCharGo (sep : Char) : List Char → List Char → List String
  | [], acc => [⟨acc.reverse⟩]
  | c :: rest, acc =>
    if c = sep then (⟨acc.reverse⟩ : String) :: splitCharGo sep rest []
    else splitCharGo sep rest (c :: acc)

/-- Rust `str::split(sep)` on a string. -/
def splitChar (sep : Char) (s : String) : List String := splitCharGo sep s.data []

/-- Rust `str::contains(char)`. -/
def strContains (s : String) (c : Char) : Bool := s.data.contains c

/-- Rust `str::is_empty`. -/
def strIsEmpty (s : String) : Bool := s.data.isEmpty

/-! ## The apt lister (`pkg_get.rs` lines 123-141) -/

/-- The line-extraction step of `get_apt_packages` (`pkg_get.rs` lines
131-136): keep the lines containing a slash, take the text before the first
slash (`split('/').next().unwrap_or("")`) trimmed, and drop empty results. -/
def aptExtract (stdout : String) : List String :=
  (((rustLines stdout).filter (fun line => strContains line '/')).map
      (fun line => rustTrim ((splitChar '/' line).headD ""))).filter
    (fun s => !strIsEmpty s)

/-- Embedding of `get_apt_packages` (`pkg_get.rs` lines 123-141): spawn
`apt list --installed` (the `?` propagates a spawn failure), extract package
names from stdout, and return a JSON document `{"apt": [...]}` pretty-printed
into the output's stdout, keeping the child's exit status. -/
def get_apt_packages (exec : Exec) : Except String POutput :=
  match exec ["apt", "list", "--installed"] with
  | .error e => .error e
  | .ok output =>
    .ok { stdout := jsonPretty (.obj (.cons "apt"
            (.arr (JArr.ofList ((aptExtract output.stdout).map JVal.str))) .nil)),
          success := output.success }

/-! ## Aggregation (`pkg_mgmt.rs` lines 44-72) and persistence (lines 74-85) -/

/-- Insert into a JSON-object association list, replacing an existing key. -/
def insertALJ (al : List (String × JVal)) (k : String) (v : JVal) : List (String × JVal) :=
  match al with
  | [] => [(k, v)]
  | (k', v') :: rest => if k' = k then (k, v) :: rest else (k', v') :: insertALJ rest k v

/-- Models `serde_json::Map::extend`: insert every pair of the second list into the
first. -/
def extendAL (acc : List (String × JVal)) (m : List (String × JVal)) : List (String × JVal) :=
  m.foldl (fun a kv => insertALJ a kv.1 kv.2) acc

/-- The loop of `combine_json_outputs` (`pkg_mgmt.rs` lines 47-61): the `?`
on each element propagates the first lister error; an `Ok` output's stdout is
trimmed, skipped when empty, parsed as JSON (a parse failure is a hard
`InvalidData` error), required to be an object (else a hard error), and its
members merged into the accumulator. -/
def combineGo : List (Except String POutput) → List (String × JVal) →
    Except String (List (String × JVal))
  | [], acc => .ok acc
  | r :: rest, acc =>
    match r with
    | .error e => .error e
    | .ok output =>
      let s := rustTrim output.stdout
      if strIsEmpty s then combineGo rest acc
      else
        match parseJsonText s with
        | none => .error "Failed to parse JSON"
        | some (.obj m) => combineGo rest (extendAL acc m.toList)
        | some _ => .error "Expected JSON object from package listing"

/-- Embedding of `combine_json_outputs` (`pkg_mgmt.rs` lines 44-72): merge
the per-manager listing documents, then pretty-print the combined object
into a successful output. -/
def combine_json_outputs (results : List (Except String POutput)) : Except String POutput :=
  match combineGo results [] with
  | .error e => .error e
  | .ok combined => .ok { stdout := jsonPretty (.obj (JObj.ofList combined)), success := true }

/-- Embedding of `save_package_list` (`pkg_mgmt.rs` lines 74-85): the bytes
written to `SysBackup/package_list.json` are exactly the output's stdout
(`from_utf8_lossy` is the identity on the valid UTF-8 the serializer
produced); the returned value is the persisted file text. -/
def save_package_list (output : POutput) : String := output.stdout

/-! ## The reconciler entry point (`pkg_mgmt.rs` lines 87-169) -/

/-- Embedding of `install_packages` (`pkg_mgmt.rs` lines 87-169) given the
text of `SysBackup/package_list.json`: parse it (a parse failure or a
non-object document is a hard error), detect the available managers, and run
the reconciliation loop; the file-read step is represented by the
`catalogText` argument. -/
def install_packages (exec : Exec) (catalogText : String) : Except String RunOut :=
  match parseJsonText catalogText with
  | none => .error "Failed to parse package_list.json"
  | some v =>
    match v with
    | .obj members =>
      match detect_package_managers exec with
      | .error e => .error e
      | .ok avail =>
        processEntries (is_package_installed exec) (install_single_package exec)
          avail members.toList
    | _ => .error "package_list.json is not a valid JSON object"

/-! ## Characterizing the reconciliation loop

`availPairs` lists, in catalog iteration order, the (package, manager)
pairs the loop actually processes: the string elements of array-valued
entries whose manager is currently marked available.  When no
installed-check errors, the loop's outcome is `runOutSpec`: each processed
pair lands in exactly one report sequence according to the check and
install oracles. -/

/-- The string elements of a JSON array, in order (the packages the inner
loop does not skip). -/
def strElems : JArr → List String
  | .nil => []
  | .cons v vs =>
    match strOf? v with
    | some p => p :: strElems vs
    | none => strElems vs

/-- The string elements of a catalog value: those of an array, none
otherwise. -/
def strElemsOf (v : JVal) : List String :=
  match arrOf? v with
  | some a => strElems a
  | none => []

/-- The (package, manager) pairs contributed by one catalog entry. -/
def pairsOfEntry (avail : List (String × Bool)) (m : String) (v : JVal) :
    List (String × String) :=
  if lookupAvail avail m then (strElemsOf v).map (fun p => (p, m)) else []

/-- All (package, manager) pairs the reconciliation loop processes, in
order. -/
def availPairs (avail : List (String × Bool)) : List (String × JVal) → List (String × String)
  | [] => []
  | (m, v) :: rest => pairsOfEntry avail m v ++ availPairs avail rest

/-- The check oracle reports the pair's package as installed. -/
def checkOkTrue (check : String → String → Except String Bool) (q : String × String) : Bool :=
  match check q.2 q.1 with
  | .ok true => true
  | _ => false

/-- The check oracle reports the pair's package as absent. -/
def checkOkFalse (check : String → String → Except String Bool) (q : String × String) : Bool :=
  match check q.2 q.1 with
  | .ok false => true
  | _ => false

/-- The check oracle fails (spawn error) on the pair. -/
def checkErrB (check : String → String → Except String Bool) (q : String × String) : Bool :=
  match check q.2 q.1 with
  | .error _ => true
  | _ => false

/-- Classified as newly installed: check said absent and install succeeded. -/
def newlyPred (check : String → String → Except String Bool)
    (install : String → String → Bool) (q : String × String) : Bool :=
  checkOkFalse check q && install q.2 q.1

/-- Classified as failed: check said absent and install failed. -/
def failedPred (check : String → String → Except String Bool)
    (install : String → String → Bool) (q : String × String) : Bool :=
  checkOkFalse check q && !install q.2 q.1

/-- The reconciliation outcome over a list of processed pairs, assuming no
check errors: order-preserving classification of the pairs into the three
report sequences, with every pair checked and installs attempted exactly for
the check-absent pairs. -/
def runOutSpec (check : String → String → Except String Bool)
    (install : String → String → Bool) (pairs : List (String × String)) : RunOut :=
  ⟨pairs.filter (checkOkTrue check),
   pairs.filter (newlyPred check install),
   pairs.filter (failedPred check install),
   pairs,
   pairs.filter (checkOkFalse check)⟩

/-- A well-formed catalog (the §3 data model: manager name to ordered
package-name sequence) embedded as the parsed JSON object the reconciler
iterates. -/
def catalogEntries (c : List (String × List String)) : List (String × JVal) :=
  c.map (fun e => (e.1, JVal.arr (JArr.ofList (e.2.map JVal.str))))

/-- The number of (package, manager) pairs present in both the catalog and
the current availability map (managers marked available). -/
def catalogAvailCount (c : List (String × List String)) (avail : List (String × Bool)) : Nat :=
  ((c.filter (fun e => lookupAvail avail e.1)).map (fun e => e.2.length)).sum

def c2check : String → String → Except String Bool := fun _ _ => .ok true

def c2install : String → String → Bool := fun _ _ => true

def c2cat : List (String × List String) := [("apt", ["curl", "vim"]), ("snap", ["hello"])]

def c2avail : List (String × Bool) := [("apt", true), ("snap", false)]

def c3check : String → String → Except String Bool := fun _ _ => .ok false

def c3install : String → String → Bool := fun _ _ => false

def c3avail : List (String × Bool) := [("apt", true), ("snap", false)]

def c3aptVal : JVal :=
  JVal.arr (JArr.cons (JVal.str "curl") (JArr.cons (JVal.str "vim") JArr.nil))

def c3entries : List (String × JVal) :=
  [("apt", c3aptVal), ("snap", JVal.arr (JArr.cons (JVal.str "hello") JArr.nil))]

def c10check : String → String → Except String Bool := fun _ _ => .ok true

def c10install : String → String → Bool := fun _ _ => true

def c10avail : List (String × Bool) := [("apt", true), ("bad", true)]

def c10entries : List (String × JVal) :=
  [("apt", JVal.arr (JArr.cons (JVal.str "curl") (JArr.cons (JVal.bool true) JArr.nil))),
   ("bad", JVal.bool false)]

def c5check1 : String → String → Except String Bool := fun _ _ => .ok false

def c5check2 : String → String → Except String Bool := fun m p =>
  if p = "vim" ∧ m = "apt" then .ok true else .ok false

def c5install : String → String → Bool := fun _ _ => true

def c5avail : List (String × Bool) := [("apt", true)]

def c5entries : List (String × JVal) :=
  [("apt", JVal.arr (JArr.cons (JVal.str "vim") JArr.nil))]

def c1exec : Exec := fun cmd =>
  if cmd = ["dpkg", "-s", "curl"] then .error "spawn failure" else .ok ⟨true, ""⟩

def c1text : String := "\x7b\"apt\": [\"curl\"]\x7d"

def c8exec : Exec := fun _ => .ok ⟨true, ""⟩

/-- The availability map produced by detection (the payload of the detector's
always-`Ok` result). -/
def detectedMap (exec : Exec) : List (String × Bool) :=
  match detect_package_managers exec with
  | .ok l => l
  | .error _ => []

def c4exec : Exec := fun _ => .error "no such file"

def c7exec : Exec := fun _ => .ok ⟨true, "Listing...\nheader noise\ncurl/now 7.8\n"⟩

/-- The specification's apt line rule, stated per line: a line containing a
slash contributes the trimmed text before its first slash unless that text
is empty; a line without a slash contributes nothing. -/
def aptLineRule (line : String) : Option String :=
  if strContains line '/' then
    (let nm := rustTrim ⟨line.data.takeWhile (fun x => x != '/')⟩
     if strIsEmpty nm then none else some nm)
  else none

/-! ## Round trip of the persisted catalog document

The development below proves that parsing the pretty-printed form of any
`JVal` recovers it exactly, which instantiates to the persisted catalog
document of `save_package_list` / `install_packages`. -/

mutual

/-- Parsing-fuel requirement of a value. -/
def jsize : JVal → Nat
  | .null => 2
  | .bool _ => 2
  | .str _ => 2
  | .arr a => 3 + jsizeA a
  | .obj m => 3 + jsizeO m

/-- Parsing-fuel requirement of array elements. -/
def jsizeA : JArr → Nat
  | .nil => 0
  | .cons v vs => 2 + jsize v + jsizeA vs

/-- Parsing-fuel requirement of object members. -/
def jsizeO : JObj → Nat
  | .nil => 0
  | .cons _ v kvs => 4 + jsize v + jsizeO kvs

end
/-- The continuation of a printed element list after its first element. -/
def ppElemsCont (ind : Nat) : JArr → List Char
  | .nil => []
  | .cons w ws => ',' :: '\n' :: ppElems ind w ws

/-- The continuation of a printed member list after its first member. -/
def ppMembersCont (ind : Nat) : JObj → List Char
  | .nil => []
  | .cons k2 v2 ks => ',' :: '\n' :: ppMembers ind k2 v2 ks

/-- The catalog document of the §3 data model: a JSON object mapping each
manager name to the array of its package-name strings, in order. -/
def catalogDoc (c : List (String × List String)) : JVal :=
  .obj (JObj.ofList (c.map (fun e => (e.1, JVal.arr (JArr.ofList (e.2.map JVal.str))))))

theorem runOutSpec_nil (check : String → String → Except String Bool)
    (install : String → String → Bool) :
    runOutSpec check install [] = RunOut.empty := rfl

theorem runOutSpec_append (check : String → String → Except String Bool)
    (install : String → String → Bool) (a b : List (String × String)) :
    runOutSpec check install (a ++ b) =
      (runOutSpec check install a).append (runOutSpec check install b) := by
  simp [runOutSpec, RunOut.append]

/-- When no package of the group makes the check oracle fail, the inner
package loop classifies exactly the string elements, in order. -/
theorem processPackages_ok (check : String → String → Except String Bool)
    (install : String → String → Bool) (m : String) :
    ∀ (vs : JArr), (∀ p ∈ strElems vs, checkErrB check (p, m) = false) →
      processPackages check install m vs =
        .ok (runOutSpec check install ((strElems vs).map (fun p => (p, m))))
  | .nil, _ => by simp [processPackages, strElems, runOutSpec, RunOut.empty]
  | .cons v vs, h => by
    match hv : strOf? v with
    | none =>
      have ih := processPackages_ok check install m vs (by
        intro p hp
        exact h p (by simp [strElems, hv, hp]))
      simp [processPackages, hv, ih, strElems]
    | some p =>
      have hperr : checkErrB check (p, m) = false := h p (by simp [strElems, hv])
      have htail : ∀ p' ∈ strElems vs, checkErrB check (p', m) = false := by
        intro p' hp'
        exact h p' (by simp [strElems, hv, hp'])
      have ih := processPackages_ok check install m vs htail
      match hc : check m p with
      | .error e => simp [checkErrB, hc] at hperr
      | .ok true =>
        simp [processPackages, hv, hc, ih, strElems, runOutSpec, checkOkTrue,
          newlyPred, failedPred, checkOkFalse, List.filter]
      | .ok false =>
        match hi : install m p with
        | true =>
          simp [processPackages, hv, hc, hi, ih, strElems, runOutSpec, checkOkTrue,
            newlyPred, failedPred, checkOkFalse, List.filter]
        | false =>
          simp [processPackages, hv, hc, hi, ih, strElems, runOutSpec, checkOkTrue,
            newlyPred, failedPred, checkOkFalse, List.filter]

/-- An inner-loop error is a check error on one of the group's string
elements. -/
theorem processPackages_err (check : String → String → Except String Bool)
    (install : String → String → Bool) (m : String) :
    ∀ (vs : JArr) (e : String), processPackages check install m vs = .error e →
      ∃ p ∈ strElems vs, check m p = .error e
  | .nil, e, h => by simp [processPackages] at h
  | .cons v vs, e, h => by
    match hv : strOf? v with
    | none =>
      obtain ⟨p, hp, hc⟩ := processPackages_err check install m vs e (by
        simpa [processPackages, hv] using h)
      exact ⟨p, by simp [strElems, hv, hp], hc⟩
    | some p =>
      simp only [processPackages, hv] at h
      match hc : check m p with
      | .error e' =>
        rw [hc] at h
        exact ⟨p, by simp [strElems, hv], by rw [hc]; injection h with h'; rw [h']⟩
      | .ok b =>
        rw [hc] at h
        match hr : processPackages check install m vs with
        | .error e' =>
          rw [hr] at h
          obtain ⟨p', hp', hc'⟩ := processPackages_err check install m vs e' hr
          injection h with h'
          exact ⟨p', by simp [strElems, hv, hp'], by rw [h'] at hc'; exact hc'⟩
        | .ok rest =>
          rw [hr] at h
          cases b <;> simp_all <;> split at h <;> simp_all

/-- A check error on some string element of the group makes the inner loop
fail. -/
theorem processPackages_not_ok (check : String → String → Except String Bool)
    (install : String → String → Bool) (m : String) :
    ∀ (vs : JArr), (∃ p ∈ strElems vs, checkErrB check (p, m) = true) →
      ∃ e, processPackages check install m vs = .error e
  | .nil, h => by simp [strElems] at h
  | .cons v vs, h => by
    match hv : strOf? v with
    | none =>
      obtain ⟨e, he⟩ := processPackages_not_ok check install m vs (by
        simpa [strElems, hv] using h)
      exact ⟨e, by simpa [processPackages, hv] using he⟩
    | some p =>
      match hc : check m p with
      | .error e => exact ⟨e, by simp [processPackages, hv, hc]⟩
      | .ok b =>
        have htail : ∃ p' ∈ strElems vs, checkErrB check (p', m) = true := by
          simp only [strElems, hv] at h
          obtain ⟨p', hp', herr⟩ := h
          rcases List.mem_cons.mp hp' with rfl | hmem
          · simp [checkErrB, hc] at herr
          · exact ⟨p', hmem, herr⟩
        obtain ⟨e, he⟩ := processPackages_not_ok check install m vs htail
        exact ⟨e, by simp [processPackages, hv, hc, he]⟩

/-- One catalog entry, without check errors: classification of its pairs. -/
theorem processEntry_ok (check : String → String → Except String Bool)
    (install : String → String → Bool) (avail : List (String × Bool))
    (m : String) (v : JVal)
    (h : ∀ q ∈ pairsOfEntry avail m v, checkErrB check q = false) :
    processEntry check install avail m v =
      .ok (runOutSpec check install (pairsOfEntry avail m v)) := by
  rw [processEntry, pairsOfEntry] at *
  by_cases ha : lookupAvail avail m
  · simp only [ha, if_true] at h ⊢
    match hv : arrOf? v with
    | some a =>
      have hse : strElemsOf v = strElems a := by simp [strElemsOf, hv]
      rw [hse] at h ⊢
      exact processPackages_ok check install m a (by
        intro p hp
        exact h (p, m) (List.mem_map_of_mem _ hp))
    | none => simp [strElemsOf, hv, runOutSpec_nil]
  · simp [ha, runOutSpec_nil]

/-- One catalog entry: an error is a check error on one of its pairs. -/
theorem processEntry_err (check : String → String → Except String Bool)
    (install : String → String → Bool) (avail : List (String × Bool))
    (m : String) (v : JVal) (e : String)
    (h : processEntry check install avail m v = .error e) :
    ∃ q ∈ pairsOfEntry avail m v, check q.2 q.1 = .error e := by
  rw [processEntry] at h
  by_cases ha : lookupAvail avail m
  · simp only [ha, if_true] at h
    match hv : arrOf? v with
    | some a =>
      rw [hv] at h
      obtain ⟨p, hp, hc⟩ := processPackages_err check install m a e h
      exact ⟨(p, m), by simp [pairsOfEntry, ha, strElemsOf, hv, hp], hc⟩
    | none => rw [hv] at h; exact absurd h (by simp)
  · simp [ha] at h

/-- One catalog entry: a check error on one of its pairs makes it fail. -/
theorem processEntry_not_ok (check : String → String → Except String Bool)
    (install : String → String → Bool) (avail : List (String × Bool))
    (m : String) (v : JVal)
    (h : ∃ q ∈ pairsOfEntry avail m v, checkErrB check q = true) :
    ∃ e, processEntry check install avail m v = .error e := by
  rw [pairsOfEntry] at h
  by_cases ha : lookupAvail avail m
  · simp only [ha, if_true] at h
    match hv : arrOf? v with
    | some a =>
      have hse : strElemsOf v = strElems a := by simp [strElemsOf, hv]
      rw [hse] at h
      obtain ⟨q, hq, herr⟩ := h
      obtain ⟨p, hp, rfl⟩ := List.mem_map.mp hq
      obtain ⟨e, he⟩ := processPackages_not_ok check install m a ⟨p, hp, herr⟩
      exact ⟨e, by simp [processEntry, ha, hv, he]⟩
    | none => simp [strElemsOf, hv] at h
  · simp [ha] at h

/-- The whole loop, without check errors: classification of all processed
pairs, in order. -/
theorem processEntries_ok (check : String → String → Except String Bool)
    (install : String → String → Bool) (avail : List (String × Bool)) :
    ∀ (entries : List (String × JVal)),
      (∀ q ∈ availPairs avail entries, checkErrB check q = false) →
      processEntries check install avail entries =
        .ok (runOutSpec check install (availPairs avail entries))
  | [], _ => by simp [processEntries, availPairs, runOutSpec_nil]
  | (m, v) :: rest, h => by
    have hhead : ∀ q ∈ pairsOfEntry avail m v, checkErrB check q = false := by
      intro q hq
      exact h q (by simp [availPairs, hq])
    have htail : ∀ q ∈ availPairs avail rest, checkErrB check q = false := by
      intro q hq
      exact h q (by simp [availPairs, hq])
    have ih := processEntries_ok check install avail rest htail
    rw [processEntries, processEntry_ok check install avail m v hhead, ih,
      availPairs, runOutSpec_append]

/-- The whole loop: an error is a check error on one of the processed
pairs. -/
theorem processEntries_err (check : String → String → Except String Bool)
    (install : String → String → Bool) (avail : List (String × Bool)) :
    ∀ (entries : List (String × JVal)) (e : String),
      processEntries check install avail entries = .error e →
      ∃ q ∈ availPairs avail entries, check q.2 q.1 = .error e
  | [], e, h => by simp [processEntries] at h
  | (m, v) :: rest, e, h => by
    rw [processEntries] at h
    match he : processEntry check install avail m v with
    | .error e' =>
      rw [he] at h
      injection h with h'
      subst h'
      obtain ⟨q, hq, hc⟩ := processEntry_err check install avail m v e' he
      exact ⟨q, by simp [availPairs, hq], hc⟩
    | .ok out =>
      rw [he] at h
      match hr : processEntries check install avail rest with
      | .error e' =>
        rw [hr] at h
        injection h with h'
        subst h'
        obtain ⟨q, hq, hc⟩ := processEntries_err check install avail rest e' hr
        exact ⟨q, by simp [availPairs, hq], hc⟩
      | .ok outs => rw [hr] at h; exact absurd h (by simp)

/-- The whole loop: a check error on a processed pair makes the run fail. -/
theorem processEntries_not_ok (check : String → String → Except String Bool)
    (install : String → String → Bool) (avail : List (String × Bool)) :
    ∀ (entries : List (String × JVal)),
      (∃ q ∈ availPairs avail entries, checkErrB check q = true) →
      ∃ e, processEntries check install avail entries = .error e
  | [], h => by simp [availPairs] at h
  | (m, v) :: rest, h => by
    obtain ⟨q, hq, herr⟩ := h
    rw [availPairs] at hq
    rcases List.mem_append.mp hq with hhead | htail
    · obtain ⟨e, he⟩ := processEntry_not_ok check install avail m v ⟨q, hhead, herr⟩
      exact ⟨e, by simp [processEntries, he]⟩
    · obtain ⟨e, he⟩ := processEntries_not_ok check install avail rest ⟨q, htail, herr⟩
      refine ⟨?_, ?_⟩
      case _ =>
        exact (match processEntry check install avail m v with
               | .error e' => e'
               | .ok _ => e)
      match hh : processEntry check install avail m v with
      | .error e' => simp [processEntries, hh]
      | .ok out => simp [processEntries, hh, he]

/-- Inversion: a loop that returned a report had no check errors, and the
report is exactly the order-preserving classification of the processed
pairs. -/
theorem processEntries_ok_inv (check : String → String → Except String Bool)
    (install : String → String → Bool) (avail : List (String × Bool))
    (entries : List (String × JVal)) (r : RunOut)
    (h : processEntries check install avail entries = .ok r) :
    (∀ q ∈ availPairs avail entries, checkErrB check q = false) ∧
      r = runOutSpec check install (availPairs avail entries) := by
  have hnoerr : ∀ q ∈ availPairs avail entries, checkErrB check q = false := by
    intro q hq
    by_contra hcontra
    obtain ⟨e, he⟩ := processEntries_not_ok check install avail entries
      ⟨q, hq, by revert hcontra; cases checkErrB check q <;> simp⟩
    rw [he] at h
    exact absurd h (by simp)
  refine ⟨hnoerr, ?_⟩
  rw [processEntries_ok check install avail entries hnoerr] at h
  injection h with h'
  exact h'.symm

/-- Every processed pair has an available manager. -/
theorem availPairs_avail (avail : List (String × Bool)) :
    ∀ (entries : List (String × JVal)) (q : String × String),
      q ∈ availPairs avail entries → lookupAvail avail q.2 = true
  | [], q, hq => by simp [availPairs] at hq
  | (m, v) :: rest, q, hq => by
    rw [availPairs] at hq
    rcases List.mem_append.mp hq with hhead | htail
    · rw [pairsOfEntry] at hhead
      by_cases ha : lookupAvail avail m
      · obtain ⟨p, _, rfl⟩ := List.mem_map.mp (by simpa [ha] using hhead)
        exact ha
      · simp [ha] at hhead
    · exact availPairs_avail avail rest q htail

/-- Every processed pair originates from an array-valued catalog entry as
one of its string elements. -/
theorem availPairs_source (avail : List (String × Bool)) :
    ∀ (entries : List (String × JVal)) (q : String × String),
      q ∈ availPairs avail entries →
      ∃ a, (q.2, JVal.arr a) ∈ entries ∧ q.1 ∈ strElems a
  | [], q, hq => by simp [availPairs] at hq
  | (m, v) :: rest, q, hq => by
    rw [availPairs] at hq
    rcases List.mem_append.mp hq with hhead | htail
    · rw [pairsOfEntry] at hhead
      by_cases ha : lookupAvail avail m
      · obtain ⟨p, hp, rfl⟩ := List.mem_map.mp (by simpa [ha] using hhead)
        rw [strElemsOf] at hp
        match hv : arrOf? v with
        | some a =>
          rw [hv] at hp
          have : v = JVal.arr a := by
            match v with
            | .arr a' => injection hv with h'; rw [h']
            | .null | .bool _ | .str _ | .obj _ => simp [arrOf?] at hv
          exact ⟨a, by simp [this], hp⟩
        | none => rw [hv] at hp; simp at hp
      · simp [ha] at hhead
    · obtain ⟨a, hmem, hp⟩ := availPairs_source avail rest q htail
      exact ⟨a, by simp [hmem], hp⟩

/-- Conversely, every string element of an available array-valued entry is
processed. -/
theorem availPairs_complete (avail : List (String × Bool)) :
    ∀ (entries : List (String × JVal)) (m : String) (v : JVal) (p : String),
      (m, v) ∈ entries → lookupAvail avail m = true → p ∈ strElemsOf v →
      (p, m) ∈ availPairs avail entries
  | [], m, v, p, hmem, _, _ => by simp at hmem
  | (m', v') :: rest, m, v, p, hmem, ha, hp => by
    rw [availPairs]
    rcases List.mem_cons.mp hmem with heq | htail
    · injection heq with h1 h2
      subst h1; subst h2
      exact List.mem_append.mpr (Or.inl (by
        rw [pairsOfEntry]
        simp only [ha, if_true]
        exact List.mem_map_of_mem _ hp))
    · exact List.mem_append.mpr (Or.inr
        (availPairs_complete avail rest m v p htail ha hp))

/-- Each error-free processed pair satisfies exactly one of the three
classification predicates. -/
theorem classify_one (check : String → String → Except String Bool)
    (install : String → String → Bool) (q : String × String)
    (h : checkErrB check q = false) :
    (checkOkTrue check q).toNat + (newlyPred check install q).toNat +
      (failedPred check install q).toNat = 1 := by
  rw [checkErrB] at h
  match hc : check q.2 q.1 with
  | .error e => rw [hc] at h; simp at h
  | .ok true => simp [checkOkTrue, newlyPred, failedPred, checkOkFalse, hc]
  | .ok false =>
    cases hi : install q.2 q.1 <;>
      simp [checkOkTrue, newlyPred, failedPred, checkOkFalse, hc, hi]

/-- Three pointwise mutually-exclusive-and-exhaustive filters of a list
partition its length. -/
theorem length_filter_three {α : Type} (A B C : α → Bool) :
    ∀ (l : List α), (∀ x ∈ l, (A x).toNat + (B x).toNat + (C x).toNat = 1) →
      (l.filter A).length + (l.filter B).length + (l.filter C).length = l.length
  | [], _ => by simp
  | x :: l, h => by
    have hx := h x (by simp)
    have ih := length_filter_three A B C l (fun y hy => h y (by simp [hy]))
    cases hA : A x <;> cases hB : B x <;> cases hC : C x <;>
      rw [hA, hB, hC] at hx <;> simp [List.filter_cons, hA, hB, hC] at hx ⊢ <;> omega

/-- Three pointwise mutually-exclusive-and-exhaustive filters of a list
partition the multiplicity of every element. -/
theorem count_filter_three {α : Type} [BEq α] [LawfulBEq α] (A B C : α → Bool) (q : α)
    (l : List α) (h : ∀ x ∈ l, (A x).toNat + (B x).toNat + (C x).toNat = 1) :
    (l.filter A).count q + (l.filter B).count q + (l.filter C).count q = l.count q := by
  by_cases hq : q ∈ l
  · have h1 := h q hq
    have cf : ∀ (p : α → Bool), (l.filter p).count q = if p q then l.count q else 0 := by
      intro p
      by_cases hp : p q
      · rw [List.count_filter hp, if_pos hp]
      · rw [if_neg hp]
        exact List.count_eq_zero.mpr (fun hmem => hp (List.of_mem_filter hmem))
    rw [cf A, cf B, cf C]
    cases hA : A q <;> cases hB : B q <;> cases hC : C q <;> rw [hA, hB, hC] at h1 <;>
      simp [hA, hB, hC] at h1 ⊢ <;> try omega
  · have hz : l.count q = 0 := List.count_eq_zero.mpr hq
    have hzf : ∀ (p : α → Bool), (l.filter p).count q = 0 := fun p =>
      List.count_eq_zero.mpr (fun hmem => hq (List.mem_of_mem_filter hmem))
    rw [hz, hzf A, hzf B, hzf C]

theorem strElems_ofList_map_str : ∀ (ps : List String),
    strElems (JArr.ofList (ps.map JVal.str)) = ps
  | [] => rfl
  | p :: ps => by rw [List.map, JArr.ofList, strElems]; simp [strOf?, strElems_ofList_map_str ps]

theorem availPairs_catalog_length (avail : List (String × Bool)) :
    ∀ (c : List (String × List String)),
      (availPairs avail (catalogEntries c)).length = catalogAvailCount c avail
  | [] => rfl
  | (m, ps) :: c => by
    have ih := availPairs_catalog_length avail c
    by_cases ha : lookupAvail avail m <;>
      simp [catalogEntries, availPairs, pairsOfEntry, catalogAvailCount, ha, strElemsOf,
        arrOf?, strElems_ofList_map_str, List.filter_cons] at ih ⊢ <;> omega

/-- Claim C2: partition completeness of the reconciler's report.  For every
loaded catalog and availability map, when the reconciliation loop of
`install_packages` completes with report `r`, the lengths of
AlreadyInstalled, NewlyInstalled and Failed sum to the number of
(package, manager) pairs present in both the catalog and the availability
map (managers marked available), and each such pair appears in exactly one
of the three sequences (multiplicity-wise: its counts in the three
sequences sum to its multiplicity among the processed pairs). -/
theorem claim_C2 (check : String → String → Except String Bool)
    (install : String → String → Bool) (c : List (String × List String))
    (avail : List (String × Bool)) (r : RunOut)
    (h : processEntries check install avail (catalogEntries c) = .ok r) :
    r.alreadyInstalled.length + r.newlyInstalled.length + r.failedInstall.length =
      catalogAvailCount c avail ∧
    ∀ q : String × String,
      r.alreadyInstalled.count q + r.newlyInstalled.count q + r.failedInstall.count q =
        (availPairs avail (catalogEntries c)).count q := by
  obtain ⟨hnoerr, hr⟩ := processEntries_ok_inv check install avail (catalogEntries c) r h
  subst hr
  have hone : ∀ q ∈ availPairs avail (catalogEntries c),
      (checkOkTrue check q).toNat + (newlyPred check install q).toNat +
        (failedPred check install q).toNat = 1 :=
    fun q hq => classify_one check install q (hnoerr q hq)
  constructor
  · rw [show (runOutSpec check install (availPairs avail (catalogEntries c))).alreadyInstalled =
        (availPairs avail (catalogEntries c)).filter (checkOkTrue check) from rfl]
    rw [show (runOutSpec check install (availPairs avail (catalogEntries c))).newlyInstalled =
        (availPairs avail (catalogEntries c)).filter (newlyPred check install) from rfl]
    rw [show (runOutSpec check install (availPairs avail (catalogEntries c))).failedInstall =
        (availPairs avail (catalogEntries c)).filter (failedPred check install) from rfl]
    rw [length_filter_three _ _ _ _ hone, availPairs_catalog_length]
  · intro q
    exact count_filter_three _ _ _ q _ hone

/-- Witness for C2 at a concrete catalog and availability map. -/
theorem claim_C2_witness :
    ∃ r, processEntries c2check c2install c2avail (catalogEntries c2cat) = .ok r ∧
      r.alreadyInstalled.length + r.newlyInstalled.length + r.failedInstall.length =
        catalogAvailCount c2cat c2avail := by
  have h : processEntries c2check c2install c2avail (catalogEntries c2cat) =
      .ok ⟨[("curl", "apt"), ("vim", "apt")], [], [], [("curl", "apt"), ("vim", "apt")], []⟩ :=
    by rfl
  exact ⟨_, h, (claim_C2 c2check c2install c2cat c2avail _ h).1⟩

/-- Claim C3: a manager absent from the availability map or mapped to false
has its whole package group skipped — none of its packages appear in any of
the three report sequences, and neither the installed-check nor the
installer is ever invoked for them — while every string package of an
available manager's array is routed through the installed-check. -/
theorem claim_C3 (check : String → String → Except String Bool)
    (install : String → String → Bool) (avail : List (String × Bool))
    (entries : List (String × JVal)) (r : RunOut)
    (h : processEntries check install avail entries = .ok r) :
    (∀ m p, lookupAvail avail m = false →
      (p, m) ∉ r.alreadyInstalled ∧ (p, m) ∉ r.newlyInstalled ∧
      (p, m) ∉ r.failedInstall ∧ (p, m) ∉ r.checkedTrace ∧ (p, m) ∉ r.installTrace) ∧
    (∀ m v p, (m, v) ∈ entries → lookupAvail avail m = true → p ∈ strElemsOf v →
      (p, m) ∈ r.checkedTrace) := by
  obtain ⟨hnoerr, hr⟩ := processEntries_ok_inv check install avail entries r h
  subst hr
  constructor
  · intro m p hm
    have hnotpairs : (p, m) ∉ availPairs avail entries := by
      intro hmem
      have := availPairs_avail avail entries (p, m) hmem
      rw [hm] at this
      exact absurd this (by simp)
    refine ⟨?_, ?_, ?_, ?_, ?_⟩ <;>
      first
      | exact fun hmem => hnotpairs (List.mem_of_mem_filter hmem)
      | exact hnotpairs
  · intro m v p hmem ha hp
    exact availPairs_complete avail entries m v p hmem ha hp

/-- Witness for C3 at the specification's scenario: apt available, snap
unavailable. -/
theorem claim_C3_witness :
    ∃ r, processEntries c3check c3install c3avail c3entries = .ok r ∧
      ("hello", "snap") ∉ r.failedInstall ∧ ("hello", "snap") ∉ r.checkedTrace ∧
      ("curl", "apt") ∈ r.checkedTrace ∧ ("vim", "apt") ∈ r.checkedTrace := by
  have h : processEntries c3check c3install c3avail c3entries =
      .ok ⟨[], [], [("curl", "apt"), ("vim", "apt")], [("curl", "apt"), ("vim", "apt")],
           [("curl", "apt"), ("vim", "apt")]⟩ := by rfl
  refine ⟨_, h, ?_, ?_, ?_, ?_⟩
  · exact ((claim_C3 c3check c3install c3avail c3entries _ h).1 "snap" "hello" rfl).2.2.1
  · exact ((claim_C3 c3check c3install c3avail c3entries _ h).1 "snap" "hello" rfl).2.2.2.1
  · exact (claim_C3 c3check c3install c3avail c3entries _ h).2 "apt" c3aptVal "curl"
      (by simp [c3entries]) rfl (by decide)
  · exact (claim_C3 c3check c3install c3avail c3entries _ h).2 "apt" c3aptVal "vim"
      (by simp [c3entries]) rfl (by decide)

/-- Claim C10: a catalog entry whose value is not a JSON array, and a
package-array element that is not a JSON string, are skipped silently:
every pair in any report sequence originates from an array-valued entry as
one of its string elements, and the loop can only fail through a check
error on such a pair — malformed shapes never cause an error. -/
theorem claim_C10 (check : String → String → Except String Bool)
    (install : String → String → Bool) (avail : List (String × Bool))
    (entries : List (String × JVal)) :
    (∀ r, processEntries check install avail entries = .ok r →
      ∀ p m, ((p, m) ∈ r.alreadyInstalled ∨ (p, m) ∈ r.newlyInstalled ∨
              (p, m) ∈ r.failedInstall) →
        ∃ a, (m, JVal.arr a) ∈ entries ∧ p ∈ strElems a) ∧
    (∀ e, processEntries check install avail entries = .error e →
      ∃ q ∈ availPairs avail entries, check q.2 q.1 = .error e) := by
  constructor
  · intro r h p m hmem
    obtain ⟨_, hr⟩ := processEntries_ok_inv check install avail entries r h
    subst hr
    have hpairs : (p, m) ∈ availPairs avail entries := by
      rcases hmem with hmem | hmem | hmem <;> exact List.mem_of_mem_filter hmem
    exact availPairs_source avail entries (p, m) hpairs
  · intro e h
    exact processEntries_err check install avail entries e h

/-- Witness for C10 at a catalog with a non-array entry and a non-string
array element. -/
theorem claim_C10_witness :
    processEntries c10check c10install c10avail c10entries =
      .ok ⟨[("curl", "apt")], [], [], [("curl", "apt")], []⟩ ∧
    ∃ a, ("apt", JVal.arr a) ∈ c10entries ∧ "curl" ∈ strElems a := by
  have h : processEntries c10check c10install c10avail c10entries =
      .ok ⟨[("curl", "apt")], [], [], [("curl", "apt")], []⟩ := by rfl
  exact ⟨h, (claim_C10 c10check c10install c10avail c10entries).1 _ h "curl" "apt"
    (Or.inl (by simp))⟩

/-- Claim C5: idempotence of reconciliation.  If a run over a catalog
completes with report `r1`, and a second run is made over the same catalog
and availability with an environment in which every pair reported
NewlyInstalled now satisfies the installed-check while every other check
and install outcome is unchanged, then the second run completes, every
previously NewlyInstalled pair is reported AlreadyInstalled, and none of
them is reported NewlyInstalled again. -/
theorem claim_C5 (check1 check2 : String → String → Except String Bool)
    (install1 install2 : String → String → Bool) (avail : List (String × Bool))
    (entries : List (String × JVal)) (r1 : RunOut)
    (h1 : processEntries check1 install1 avail entries = .ok r1)
    (hnew : ∀ p m, (p, m) ∈ r1.newlyInstalled → check2 m p = .ok true)
    (hsame : ∀ p m, (p, m) ∉ r1.newlyInstalled → check2 m p = check1 m p)
    (hinst : install2 = install1) :
    ∃ r2, processEntries check2 install2 avail entries = .ok r2 ∧
      ∀ p m, (p, m) ∈ r1.newlyInstalled →
        (p, m) ∈ r2.alreadyInstalled ∧ (p, m) ∉ r2.newlyInstalled := by
  obtain ⟨hnoerr1, hr1⟩ := processEntries_ok_inv check1 install1 avail entries r1 h1
  have hnoerr2 : ∀ q ∈ availPairs avail entries, checkErrB check2 q = false := by
    intro q hq
    by_cases hn : (q.1, q.2) ∈ r1.newlyInstalled
    · have := hnew q.1 q.2 hn
      simp [checkErrB, this]
    · have := hsame q.1 q.2 hn
      rw [checkErrB, this, ← checkErrB]
      exact hnoerr1 q hq
  refine ⟨runOutSpec check2 install2 (availPairs avail entries),
    processEntries_ok check2 install2 avail entries hnoerr2, ?_⟩
  intro p m hmem
  have hpairs : (p, m) ∈ availPairs avail entries := by
    rw [hr1] at hmem
    exact List.mem_of_mem_filter hmem
  have hc2 : check2 m p = .ok true := hnew p m hmem
  constructor
  · exact List.mem_filter.mpr ⟨hpairs, by simp [checkOkTrue, hc2]⟩
  · intro hmem2
    have := (List.mem_filter.mp hmem2).2
    rw [newlyPred, checkOkFalse] at this
    rw [hc2] at this
    simp at this

/-- Witness for C5: a package newly installed in the first run is reported
already installed in the second. -/
theorem claim_C5_witness :
    ∃ r2, processEntries c5check2 c5install c5avail c5entries = .ok r2 ∧
      ("vim", "apt") ∈ r2.alreadyInstalled ∧ ("vim", "apt") ∉ r2.newlyInstalled := by
  have h1 : processEntries c5check1 c5install c5avail c5entries =
      .ok ⟨[], [("vim", "apt")], [], [("vim", "apt")], [("vim", "apt")]⟩ := by rfl
  obtain ⟨r2, h2, hmain⟩ := claim_C5 c5check1 c5check2 c5install c5install c5avail c5entries
    _ h1
    (by
      intro p m hmem
      simp at hmem
      obtain ⟨rfl, rfl⟩ := hmem
      rfl)
    (by
      intro p m hmem
      simp at hmem
      rw [c5check2, c5check1]
      rw [if_neg (by
        intro hcon
        exact hmem hcon.1 hcon.2)])
    rfl
  exact ⟨r2, h2, hmain "vim" "apt" (by simp)⟩

/-- Claim C1 (amended): a spawn failure of the manager-specific
existence-query command is NOT coerced to false — `is_package_installed`
propagates it as an error (the `?` on `output()`), and the enclosing
reconciliation loop of `install_packages` is aborted by it whenever the
failing pair is processed; only an unknown manager is coerced to
`Ok(false)`. -/
theorem claim_C1_amended (exec : Exec) (m p prog e : String)
    (avail : List (String × Bool)) (hprog : checkProgram m = some prog)
    (herr : exec (prog :: checkArgs m p) = .error e)
    (hav : lookupAvail avail m = true) :
    is_package_installed exec m p = .error e ∧
    processEntries (is_package_installed exec) (install_single_package exec) avail
      [(m, JVal.arr (JArr.cons (JVal.str p) JArr.nil))] = .error e := by
  have h1 : is_package_installed exec m p = .error e := by
    simp [is_package_installed, hprog, herr]
  refine ⟨h1, ?_⟩
  simp [processEntries, processEntry, hav, arrOf?, processPackages, strOf?, h1]

/-- Counterexample to C1 as stated: with every probe succeeding but the
`dpkg` existence-check binary failing to spawn, `install_packages` aborts
with the spawn error instead of treating the package as absent. -/
theorem claim_C1_counterexample :
    install_packages c1exec c1text = .error "spawn failure" := by rfl

/-- Witness for the amended C1 at the counterexample's input. -/
theorem claim_C1_witness :
    is_package_installed c1exec "apt" "curl" = .error "spawn failure" ∧
    processEntries (is_package_installed c1exec) (install_single_package c1exec)
      [("apt", true)] [("apt", JVal.arr (JArr.cons (JVal.str "curl") JArr.nil))] =
      .error "spawn failure" :=
  claim_C1_amended c1exec "apt" "curl" "dpkg" "spawn failure" [("apt", true)]
    rfl rfl rfl

/-- Claim C8: for every known manager, `install_single_package` returns
true exactly when the install command spawned successfully and exited with
success; both a spawn failure and a non-zero exit yield `false` (hence the
two causes are indistinguishable from the result), and the function never
raises an error (it is Bool-valued by construction). -/
theorem claim_C8 (exec : Exec) (m p command : String) (elevate : Bool)
    (h : installCommandSudo m = some (command, elevate)) :
    (install_single_package exec m p = true ↔
      ∃ o, exec (installCmdline command elevate m p) = .ok o ∧ o.success = true) ∧
    (∀ e, exec (installCmdline command elevate m p) = .error e →
      install_single_package exec m p = false) ∧
    (∀ o, exec (installCmdline command elevate m p) = .ok o → o.success = false →
      install_single_package exec m p = false) := by
  match hx : exec (installCmdline command elevate m p) with
  | .ok o =>
    have hval : install_single_package exec m p = o.success := by
      simp [install_single_package, h, hx]
    refine ⟨?_, ?_, ?_⟩
    · rw [hval]
      constructor
      · intro hs
        exact ⟨o, rfl, hs⟩
      · intro ⟨o', ho', hs⟩
        injection ho' with h''
        rw [h'']
        exact hs
    · intro e he
      exact absurd he (by simp)
    · intro o' ho' hs
      injection ho' with h''
      rw [hval, h'']
      exact hs
  | .error e0 =>
    have hval : install_single_package exec m p = false := by
      simp [install_single_package, h, hx]
    refine ⟨?_, fun _ _ => hval, fun o' ho' _ => absurd ho' (by simp)⟩
    rw [hval]
    constructor
    · intro hfalse
      exact absurd hfalse (by simp)
    · intro ⟨o', ho', _⟩
      exact absurd ho' (by simp)

/-- Witness for C8: with a successfully spawned, successfully exiting
install command, the result is true. -/
theorem claim_C8_witness : install_single_package c8exec "apt" "curl" = true :=
  (claim_C8 c8exec "apt" "curl" "apt" true rfl).1.mpr ⟨⟨true, ""⟩, rfl, rfl⟩

theorem detect_eq (exec : Exec) : detect_package_managers exec =
    .ok [("apt", probeManager exec "apt"), ("yum_dnf", probeManager exec "dnf"),
         ("portage", probeManager exec "emerge"), ("pacman", probeManager exec "pacman"),
         ("flatpak", probeManager exec "flatpak"), ("snap", probeManager exec "snap"),
         ("xbps", probeManager exec "xbps-query")] := by rfl

/-- The probe outcome is success-of-spawn-and-exit; a spawn failure is
false. -/
theorem probe_spec (exec : Exec) (cmd : String) :
    ((probeManager exec cmd = true) ↔
      (∃ o, exec [cmd, "--version"] = .ok o ∧ o.success = true)) ∧
    (∀ e, exec [cmd, "--version"] = .error e → probeManager exec cmd = false) := by
  match hx : exec [cmd, "--version"] with
  | .ok o =>
    have hval : probeManager exec cmd = o.success := by simp [probeManager, hx]
    refine ⟨?_, fun e he => absurd he (by simp)⟩
    rw [hval]
    constructor
    · intro hs
      exact ⟨o, rfl, hs⟩
    · intro ⟨o', ho', hs⟩
      injection ho' with h''
      rw [h'']
      exact hs
  | .error e0 =>
    have hval : probeManager exec cmd = false := by simp [probeManager, hx]
    refine ⟨?_, fun e he => hval⟩
    rw [hval]
    constructor
    · intro hfalse
      exact absurd hfalse (by simp)
    · intro ⟨o', ho', _⟩
      exact absurd ho' (by simp)

/-- Claim C4: detection is total over the seven-entry registry and cannot
fail: it always returns (`Ok`) an availability map of all seven managers, in
which each manager is marked by its probe outcome — available exactly when
the probe command spawned successfully and exited with success, with a
probe spawn failure coerced to false, never an error. -/
theorem claim_C4 (exec : Exec) :
    detect_package_managers exec = .ok (detectedMap exec) ∧
    (detectedMap exec).length = 7 ∧
    (∀ name cmd, (name, cmd) ∈ managersRegistry →
      (detectedMap exec).lookup name = some (probeManager exec cmd)) ∧
    (∀ cmd, ((probeManager exec cmd = true) ↔
        (∃ o, exec [cmd, "--version"] = .ok o ∧ o.success = true)) ∧
      (∀ e, exec [cmd, "--version"] = .error e → probeManager exec cmd = false)) := by
  refine ⟨by rfl, by rfl, ?_, fun cmd => probe_spec exec cmd⟩
  intro name cmd hmem
  fin_cases hmem <;> rfl

/-- Witness for C4: with every probe spawn failing, apt is marked
unavailable and detection still succeeds. -/
theorem claim_C4_witness :
    detect_package_managers c4exec = .ok (detectedMap c4exec) ∧
    (detectedMap c4exec).lookup "apt" = some false := by
  have h := claim_C4 c4exec
  refine ⟨h.1, ?_⟩
  rw [h.2.2.1 "apt" "apt" (by simp [managersRegistry]),
    ((h.2.2.2 "apt").2 "no such file" rfl)]

/-- A lister error anywhere makes the aggregation loop fail. -/
theorem combineGo_err (e : String) :
    ∀ (results : List (Except String POutput)) (acc : List (String × JVal)),
      Except.error e ∈ results → ∃ e', combineGo results acc = .error e'
  | [], _, h => by simp at h
  | r :: rest, acc, h => by
    match r with
    | .error e0 => exact ⟨e0, by rw [combineGo]⟩
    | .ok output =>
      have htail : Except.error e ∈ rest := by
        rcases List.mem_cons.mp h with heq | hmem
        · exact absurd heq (by simp)
        · exact hmem
      rw [combineGo]
      by_cases hemp : strIsEmpty (rustTrim output.stdout)
      · obtain ⟨e', he'⟩ := combineGo_err e rest acc htail
        exact ⟨e', by simp [hemp, he']⟩
      · match hp : parseJsonText (rustTrim output.stdout) with
        | none => exact ⟨"Failed to parse JSON", by simp [hemp, hp]⟩
        | some (.obj mem) =>
          obtain ⟨e', he'⟩ := combineGo_err e rest (extendAL acc mem.toList) htail
          exact ⟨e', by simp [hemp, hp, he']⟩
        | some .null => exact ⟨"Expected JSON object from package listing", by simp [hemp, hp]⟩
        | some (.bool b) => exact ⟨"Expected JSON object from package listing", by simp [hemp, hp]⟩
        | some (.str s) => exact ⟨"Expected JSON object from package listing", by simp [hemp, hp]⟩
        | some (.arr a) => exact ⟨"Expected JSON object from package listing", by simp [hemp, hp]⟩

/-- Claim C7: aggregation is all-or-nothing across managers — if any
per-manager lister result is an error, `combine_json_outputs` returns an
error and produces no partial catalog; meanwhile noisy individual lines
within one manager's listing never cause an error: the apt lister succeeds
whenever its list command spawns, whatever the stdout content. -/
theorem claim_C7 (results : List (Except String POutput)) (e : String)
    (h : Except.error e ∈ results) :
    (∃ e', combine_json_outputs results = .error e') ∧
    (∀ (exec : Exec) (o : POutput), exec ["apt", "list", "--installed"] = .ok o →
      ∃ out, get_apt_packages exec = .ok out) := by
  constructor
  · obtain ⟨e', he'⟩ := combineGo_err e results [] h
    exact ⟨e', by rw [combine_json_outputs, he']⟩
  · intro exec o ho
    exact ⟨_, by rw [get_apt_packages, ho]⟩

/-- Witness for C7: a single lister error aborts the aggregation, and the
apt lister tolerates noisy stdout lines. -/
theorem claim_C7_witness :
    (∃ e', combine_json_outputs [Except.error "apt: spawn failed"] = .error e') ∧
    (∃ out, get_apt_packages c7exec = .ok out) := by
  have h := claim_C7 [Except.error "apt: spawn failed"] "apt: spawn failed" (by simp)
  exact ⟨h.1, h.2 c7exec ⟨true, "Listing...\nheader noise\ncurl/now 7.8\n"⟩ rfl⟩

/-- The first field of a character split is the text before the first
separator. -/
theorem splitCharGo_headD (sep : Char) :
    ∀ (cs acc : List Char),
      (splitCharGo sep cs acc).headD "" =
        ⟨acc.reverse ++ cs.takeWhile (fun x => x != sep)⟩
  | [], acc => by simp [splitCharGo]
  | c :: cs, acc => by
    by_cases hc : c = sep
    · simp [splitCharGo, hc]
    · rw [splitCharGo]
      simp only [hc, if_false]
      rw [splitCharGo_headD sep cs (c :: acc)]
      simp [List.takeWhile_cons, hc]

/-- Fusing filter–map–filter into a single filterMap. -/
theorem filter_map_filter_eq_filterMap {α β : Type} (P : α → Bool) (f : α → β) (Q : β → Bool) :
    ∀ (l : List α), ((l.filter P).map f).filter Q =
      l.filterMap (fun x => if P x then (if Q (f x) then some (f x) else none) else none)
  | [] => rfl
  | x :: l => by
    have ih := filter_map_filter_eq_filterMap P f Q l
    by_cases hP : P x
    · by_cases hQ : Q (f x) <;>
        simp [List.filter_cons, List.filterMap_cons, hP, hQ, ih]
    · simp [List.filter_cons, List.filterMap_cons, hP, ih]

/-- Claim C9: the apt lister's extraction consists exactly, in line order,
of the trimmed text before the first slash of each line containing a slash,
with slash-free lines and empty extracted names silently dropped; the
extraction is a total function of the stdout text (it cannot fail). -/
theorem claim_C9 (stdout : String) :
    aptExtract stdout = (rustLines stdout).filterMap aptLineRule := by
  rw [aptExtract, filter_map_filter_eq_filterMap]
  congr 1
  funext line
  have hs : (splitChar '/' line).headD "" = ⟨line.data.takeWhile (fun x => x != '/')⟩ := by
    rw [splitChar, splitCharGo_headD]
    simp
  by_cases hc : strContains line '/'
  · rw [aptLineRule]
    simp only [hc, if_true, hs]
    by_cases hemp : strIsEmpty (rustTrim ⟨line.data.takeWhile (fun x => x != '/')⟩) <;>
      simp [hemp]
  · simp [aptLineRule, hc]

theorem string_mk_data : ∀ (s : String), (⟨s.data⟩ : String) = s
  | ⟨_⟩ => rfl

theorem hexVal?_hexDigit (n : Nat) (h : n < 16) : hexVal? (hexDigit n) = some n := by
  interval_cases n <;> decide

theorem parseStringBody_cons_qu (rest : List Char) :
    parseStringBody (qu :: rest) = some ([], rest) := by
  rw [parseStringBody, if_pos rfl]

theorem parseStringBody_cons_bs (rest : List Char) :
    parseStringBody (bs :: rest) = parseEscape rest := by
  rw [parseStringBody, if_neg (by decide), if_pos rfl]

theorem parseStringBody_cons_raw (c : Char) (rest : List Char) (h1 : ¬c = qu) (h2 : ¬c = bs) :
    parseStringBody (c :: rest) = (parseStringBody rest).map (fun x => (c :: x.1, x.2)) := by
  rw [parseStringBody, if_neg h1, if_neg h2]

/-- Decoding inverts serde_json's string escaping. -/
theorem parseStringBody_escList :
    ∀ (s rest : List Char), parseStringBody (escList s ++ qu :: rest) = some (s, rest)
  | [], rest => by rw [escList, List.nil_append, parseStringBody_cons_qu]
  | c :: s, rest => by
    have ih := parseStringBody_escList s rest
    rw [escList, List.append_assoc, escChar]
    by_cases h1 : c = qu
    · subst h1
      rw [if_pos rfl]
      show parseStringBody (bs :: qu :: (escList s ++ qu :: rest)) = _
      rw [parseStringBody_cons_bs, parseEscape, if_pos rfl, ih]
      rfl
    · rw [if_neg h1]
      by_cases h2 : c = bs
      · subst h2
        rw [if_pos rfl]
        show parseStringBody (bs :: bs :: (escList s ++ qu :: rest)) = _
        rw [parseStringBody_cons_bs, parseEscape, if_neg (by decide), if_pos rfl, ih]
        rfl
      · rw [if_neg h2]
        by_cases h3 : c = Char.ofNat 8
        · subst h3
          rw [if_pos rfl]
          show parseStringBody (bs :: 'b' :: (escList s ++ qu :: rest)) = _
          rw [parseStringBody_cons_bs, parseEscape, if_neg (by decide), if_neg (by decide),
            if_neg (by decide), if_pos rfl, ih]
          rfl
        · rw [if_neg h3]
          by_cases h4 : c = Char.ofNat 9
          · subst h4
            rw [if_pos rfl]
            show parseStringBody (bs :: 't' :: (escList s ++ qu :: rest)) = _
            rw [parseStringBody_cons_bs, parseEscape, if_neg (by decide), if_neg (by decide),
              if_neg (by decide), if_neg (by decide), if_pos rfl, ih]
            rfl
          · rw [if_neg h4]
            by_cases h5 : c = Char.ofNat 10
            · subst h5
              rw [if_pos rfl]
              show parseStringBody (bs :: 'n' :: (escList s ++ qu :: rest)) = _
              rw [parseStringBody_cons_bs, parseEscape, if_neg (by decide), if_neg (by decide),
                if_neg (by decide), if_neg (by decide), if_neg (by decide), if_pos rfl, ih]
              rfl
            · rw [if_neg h5]
              by_cases h6 : c = Char.ofNat 12
              · subst h6
                rw [if_pos rfl]
                show parseStringBody (bs :: 'f' :: (escList s ++ qu :: rest)) = _
                rw [parseStringBody_cons_bs, parseEscape, if_neg (by decide), if_neg (by decide),
                  if_neg (by decide), if_neg (by decide), if_neg (by decide), if_neg (by decide),
                  if_pos rfl, ih]
                rfl
              · rw [if_neg h6]
                by_cases h7 : c = Char.ofNat 13
                · subst h7
                  rw [if_pos rfl]
                  show parseStringBody (bs :: 'r' :: (escList s ++ qu :: rest)) = _
                  rw [parseStringBody_cons_bs, parseEscape, if_neg (by decide),
                    if_neg (by decide), if_neg (by decide), if_neg (by decide),
                    if_neg (by decide), if_neg (by decide), if_neg (by decide), if_pos rfl, ih]
                  rfl
                · rw [if_neg h7]
                  by_cases h8 : c.toNat < 32
                  · rw [if_pos h8]
                    show parseStringBody (bs :: 'u' :: '0' :: '0' ::
                      hexDigit (c.toNat / 16) :: hexDigit (c.toNat % 16) ::
                      (escList s ++ qu :: rest)) = _
                    rw [parseStringBody_cons_bs, parseEscape, if_neg (by decide),
                      if_neg (by decide), if_neg (by decide), if_neg (by decide),
                      if_neg (by decide), if_neg (by decide), if_neg (by decide),
                      if_neg (by decide), if_pos rfl, parseUEscape]
                    rw [show hexVal? '0' = some 0 from rfl,
                      hexVal?_hexDigit (c.toNat / 16) (by omega),
                      hexVal?_hexDigit (c.toNat % 16) (by omega)]
                    show (parseStringBody (escList s ++ qu :: rest)).map _ = _
                    rw [ih]
                    show some (Char.ofNat (((0 * 16 + 0) * 16 + c.toNat / 16) * 16 +
                      c.toNat % 16) :: s, rest) = _
                    rw [show ((0 * 16 + 0) * 16 + c.toNat / 16) * 16 + c.toNat % 16 =
                      c.toNat from by omega, Char.ofNat_toNat]
                  · rw [if_neg h8]
                    show parseStringBody (c :: (escList s ++ qu :: rest)) = _
                    rw [parseStringBody_cons_raw c _ h1 h2, ih]
                    rfl

theorem skipWs_cons_ws (c : Char) (cs : List Char) (h : isJsonWs c = true) :
    skipWs (c :: cs) = skipWs cs := by
  simp [skipWs, List.dropWhile_cons, h]

theorem skipWs_cons_not (c : Char) (cs : List Char) (h : isJsonWs c = false) :
    skipWs (c :: cs) = c :: cs := by
  simp [skipWs, List.dropWhile_cons, h]

theorem skipWs_sp (n : Nat) : ∀ (cs : List Char), skipWs (sp n ++ cs) = skipWs cs := by
  induction n with
  | zero => intro cs; rfl
  | succ k ih =>
    intro cs
    rw [sp, List.replicate_succ, List.cons_append, skipWs_cons_ws ' ' _ (by decide)]
    exact ih cs

theorem ppElems_eq (ind : Nat) (v : JVal) (vs : JArr) :
    ppElems ind v vs = sp (2 * ind) ++ ppVal ind v ++ ppElemsCont ind vs := by
  cases vs <;> simp [ppElems, ppElemsCont]

theorem ppMembers_eq (ind : Nat) (k : String) (v : JVal) (kvs : JObj) :
    ppMembers ind k v kvs =
      sp (2 * ind) ++ (qu :: escList k.data ++ qu :: ':' :: ' ' :: ppVal ind v) ++
        ppMembersCont ind kvs := by
  cases kvs <;> simp [ppMembers, ppMembersCont]

/-- Every printed value starts with a non-whitespace character that is
neither a closing bracket nor a closing brace. -/
theorem ppVal_head (ind : Nat) (v : JVal) :
    ∃ c cs, ppVal ind v = c :: cs ∧ isJsonWs c = false ∧ ¬c = ']' ∧ ¬c = rbr := by
  match v with
  | .null => exact ⟨'n', ['u', 'l', 'l'], by rw [ppVal], by decide, by decide, by decide⟩
  | .bool true =>
    exact ⟨'t', ['r', 'u', 'e'], by rw [ppVal], by decide, by decide, by decide⟩
  | .bool false =>
    exact ⟨'f', ['a', 'l', 's', 'e'], by rw [ppVal], by decide, by decide, by decide⟩
  | .str s =>
    exact ⟨qu, escList s.data ++ [qu], by rw [ppVal]; simp, by decide, by decide, by decide⟩
  | .arr .nil => exact ⟨'[', [']'], by rw [ppVal], by decide, by decide, by decide⟩
  | .arr (.cons w ws) =>
    exact ⟨'[', '\n' :: ppElems (ind + 1) w ws ++ '\n' :: sp (2 * ind) ++ [']'],
      by rw [ppVal]; simp, by decide, by decide, by decide⟩
  | .obj .nil => exact ⟨lbr, [rbr], by rw [ppVal], by decide, by decide, by decide⟩
  | .obj (.cons k w ks) =>
    exact ⟨lbr, '\n' :: ppMembers (ind + 1) k w ks ++ '\n' :: sp (2 * ind) ++ [rbr],
      by rw [ppVal]; simp, by decide, by decide, by decide⟩

theorem skipWs_ppVal (ind : Nat) (v : JVal) (t : List Char) :
    skipWs (ppVal ind v ++ t) = ppVal ind v ++ t := by
  obtain ⟨c, cs, he, hw, _, _⟩ := ppVal_head ind v
  rw [he, List.cons_append, skipWs_cons_not c _ hw]

/-- The parser functions only inspect their input through `skipWs`. -/
theorem parseVal_congr (fuel : Nat) (cs cs' : List Char) (h : skipWs cs = skipWs cs') :
    parseVal fuel cs = parseVal fuel cs' := by
  match fuel with
  | 0 => rfl
  | f + 1 => rw [parseVal, parseVal, h]

theorem parseElems_congr (fuel : Nat) (cs cs' : List Char) (h : skipWs cs = skipWs cs') :
    parseElems fuel cs = parseElems fuel cs' := by
  match fuel with
  | 0 => rfl
  | f + 1 => rw [parseElems, parseElems, parseVal_congr f cs cs' h]

theorem parseMembers_congr (fuel : Nat) (cs cs' : List Char) (h : skipWs cs = skipWs cs') :
    parseMembers fuel cs = parseMembers fuel cs' := by
  match fuel with
  | 0 => rfl
  | f + 1 => rw [parseMembers, parseMembers, h]

mutual

/-- Parsing inverts pretty-printing, for a single value followed by
arbitrary input. -/
theorem parseVal_pp : ∀ (v : JVal) (fuel ind : Nat) (rest : List Char),
    jsize v ≤ fuel → parseVal fuel (ppVal ind v ++ rest) = some (v, rest)
  | .null, fuel, ind, rest, hf => by
    obtain ⟨f, rfl⟩ : ∃ f, fuel = f + 2 := ⟨fuel - 2, by simp [jsize] at hf; omega⟩
    rw [ppVal]
    show parseVal (f + 1 + 1) ('n' :: 'u' :: 'l' :: 'l' :: rest) = _
    rw [parseVal, skipWs_cons_not _ _ (by decide), parseValCore, if_neg (by decide),
      if_neg (by decide), if_neg (by decide), if_neg (by decide), if_neg (by decide),
      if_pos rfl, parseLitNull]
  | .bool true, fuel, ind, rest, hf => by
    obtain ⟨f, rfl⟩ : ∃ f, fuel = f + 2 := ⟨fuel - 2, by simp [jsize] at hf; omega⟩
    rw [ppVal]
    show parseVal (f + 1 + 1) ('t' :: 'r' :: 'u' :: 'e' :: rest) = _
    rw [parseVal, skipWs_cons_not _ _ (by decide), parseValCore, if_neg (by decide),
      if_neg (by decide), if_neg (by decide), if_pos rfl, parseLitTrue]
  | .bool false, fuel, ind, rest, hf => by
    obtain ⟨f, rfl⟩ : ∃ f, fuel = f + 2 := ⟨fuel - 2, by simp [jsize] at hf; omega⟩
    rw [ppVal]
    show parseVal (f + 1 + 1) ('f' :: 'a' :: 'l' :: 's' :: 'e' :: rest) = _
    rw [parseVal, skipWs_cons_not _ _ (by decide), parseValCore, if_neg (by decide),
      if_neg (by decide), if_neg (by decide), if_neg (by decide), if_pos rfl, parseLitFalse]
  | .str s, fuel, ind, rest, hf => by
    obtain ⟨f, rfl⟩ : ∃ f, fuel = f + 2 := ⟨fuel - 2, by simp [jsize] at hf; omega⟩
    rw [ppVal]
    have hin : (qu :: escList s.data ++ [qu]) ++ rest = qu :: (escList s.data ++ qu :: rest) := by
      simp
    rw [hin, parseVal, skipWs_cons_not _ _ (by decide), parseValCore, if_neg (by decide),
      if_neg (by decide), if_pos rfl, parseStringBody_escList, Option.map_some',
      string_mk_data]
  | .arr .nil, fuel, ind, rest, hf => by
    obtain ⟨f, rfl⟩ : ∃ f, fuel = f + 3 := ⟨fuel - 3, by simp [jsize, jsizeA] at hf; omega⟩
    rw [ppVal]
    show parseVal (f + 2 + 1) ('[' :: ']' :: rest) = _
    rw [parseVal, skipWs_cons_not _ _ (by decide), parseValCore, if_neg (by decide),
      if_pos rfl, skipWs_cons_not _ _ (by decide), parseArrBody, if_pos rfl]
  | .arr (.cons v vs), fuel, ind, rest, hf => by
    have hsz : 2 + jsize v + jsizeA vs + 3 ≤ fuel := by simp [jsize, jsizeA] at hf; omega
    obtain ⟨f, rfl⟩ : ∃ f, fuel = f + 3 := ⟨fuel - 3, by omega⟩
    obtain ⟨c, cs, hcons, hws, hbr, _⟩ := ppVal_head (ind + 1) v
    have htail : skipWs ('\n' :: sp (2 * ind) ++ ']' :: rest) = ']' :: rest := by
      rw [List.cons_append, skipWs_cons_ws _ _ (by decide), skipWs_sp,
        skipWs_cons_not _ _ (by decide)]
    have hskipE : skipWs (ppElems (ind + 1) v vs ++ ('\n' :: sp (2 * ind) ++ ']' :: rest)) =
        ppVal (ind + 1) v ++ (ppElemsCont (ind + 1) vs ++ ('\n' :: sp (2 * ind) ++ ']' :: rest)) := by
      rw [ppElems_eq]
      simp only [List.append_assoc]
      rw [skipWs_sp, skipWs_ppVal]
    rw [ppVal]
    show parseVal (f + 2 + 1)
      ('[' :: ('\n' :: ppElems (ind + 1) v vs ++ '\n' :: sp (2 * ind) ++ [']']) ++ rest) = _
    rw [List.cons_append, parseVal, skipWs_cons_not _ _ (by decide), parseValCore,
      if_neg (by decide), if_pos rfl]
    have hin : ('\n' :: ppElems (ind + 1) v vs ++ '\n' :: sp (2 * ind) ++ [']']) ++ rest =
        '\n' :: (ppElems (ind + 1) v vs ++ ('\n' :: sp (2 * ind) ++ ']' :: rest)) := by
      simp
    rw [hin, skipWs_cons_ws _ _ (by decide), hskipE, hcons]
    show parseArrBody (f + 1) (c :: (cs ++ (ppElemsCont (ind + 1) vs ++
      ('\n' :: sp (2 * ind) ++ ']' :: rest)))) = _
    rw [parseArrBody, if_neg hbr]
    have hcongr : parseElems f (c :: (cs ++ (ppElemsCont (ind + 1) vs ++
        ('\n' :: sp (2 * ind) ++ ']' :: rest)))) =
        parseElems f (ppElems (ind + 1) v vs ++ ('\n' :: sp (2 * ind) ++ ']' :: rest)) := by
      apply parseElems_congr
      rw [hskipE, hcons, List.cons_append, skipWs_cons_not _ _ hws]
      exact rfl
    rw [hcongr, parseElems_pp v vs f (ind + 1) _ rest (by simp [jsizeA]; omega) htail]
    rfl
  | .obj .nil, fuel, ind, rest, hf => by
    obtain ⟨f, rfl⟩ : ∃ f, fuel = f + 3 := ⟨fuel - 3, by simp [jsize, jsizeO] at hf; omega⟩
    rw [ppVal]
    show parseVal (f + 2 + 1) (lbr :: rbr :: rest) = _
    rw [parseVal, skipWs_cons_not _ _ (by decide), parseValCore, if_pos rfl,
      skipWs_cons_not _ _ (by decide), parseObjBody, if_pos rfl]
  | .obj (.cons k v kvs), fuel, ind, rest, hf => by
    have hsz : 4 + jsize v + jsizeO kvs + 3 ≤ fuel := by simp [jsize, jsizeO] at hf; omega
    obtain ⟨f, rfl⟩ : ∃ f, fuel = f + 3 := ⟨fuel - 3, by omega⟩
    have htail : skipWs ('\n' :: sp (2 * ind) ++ rbr :: rest) = rbr :: rest := by
      rw [List.cons_append, skipWs_cons_ws _ _ (by decide), skipWs_sp,
        skipWs_cons_not _ _ (by decide)]
    rw [ppVal]
    show parseVal (f + 2 + 1)
      (lbr :: ('\n' :: ppMembers (ind + 1) k v kvs ++ '\n' :: sp (2 * ind) ++ [rbr]) ++ rest) = _
    rw [List.cons_append, parseVal, skipWs_cons_not _ _ (by decide), parseValCore, if_pos rfl]
    have hin : ('\n' :: ppMembers (ind + 1) k v kvs ++ '\n' :: sp (2 * ind) ++ [rbr]) ++ rest =
        '\n' :: (ppMembers (ind + 1) k v kvs ++ ('\n' :: sp (2 * ind) ++ rbr :: rest)) := by
      simp
    rw [hin, skipWs_cons_ws _ _ (by decide)]
    have hskipM : skipWs (ppMembers (ind + 1) k v kvs ++ ('\n' :: sp (2 * ind) ++ rbr :: rest)) =
        qu :: (escList k.data ++ qu :: ':' :: ' ' :: ppVal (ind + 1) v ++
          (ppMembersCont (ind + 1) kvs ++ ('\n' :: sp (2 * ind) ++ rbr :: rest))) := by
      rw [ppMembers_eq]
      simp only [List.append_assoc, List.cons_append]
      rw [skipWs_sp, skipWs_cons_not _ _ (by decide)]
      try simp
    rw [hskipM]
    show parseObjBody (f + 1) _ = _
    rw [parseObjBody, if_neg (by decide)]
    have hcongr : parseMembers f (qu :: (escList k.data ++ qu :: ':' :: ' ' ::
        ppVal (ind + 1) v ++ (ppMembersCont (ind + 1) kvs ++
          ('\n' :: sp (2 * ind) ++ rbr :: rest)))) =
        parseMembers f
          (ppMembers (ind + 1) k v kvs ++ ('\n' :: sp (2 * ind) ++ rbr :: rest)) := by
      apply parseMembers_congr
      rw [hskipM, skipWs_cons_not _ _ (by decide)]
    rw [hcongr, parseMembers_pp k v kvs f (ind + 1) _ rest (by simp [jsizeO]; omega) htail]
    rfl
  termination_by v => sizeOf v
  decreasing_by all_goals (simp; try omega)

/-- Parsing inverts pretty-printing for nonempty element lists, given a
terminator that skips to the closing bracket. -/
theorem parseElems_pp : ∀ (v : JVal) (vs : JArr) (fuel ind : Nat) (tail rest : List Char),
    jsizeA (JArr.cons v vs) ≤ fuel → skipWs tail = ']' :: rest →
    parseElems fuel (ppElems ind v vs ++ tail) = some (JArr.cons v vs, rest)
  | v, .nil, fuel, ind, tail, rest, hf, hskip => by
    obtain ⟨f, rfl⟩ : ∃ f, fuel = f + 1 := ⟨fuel - 1, by simp [jsizeA] at hf; omega⟩
    rw [parseElems]
    have hval : parseVal f (ppElems ind v .nil ++ tail) =
        some (v, ppElemsCont ind .nil ++ tail) := by
      rw [parseVal_congr f (ppElems ind v .nil ++ tail)
        (ppVal ind v ++ (ppElemsCont ind .nil ++ tail))
        (by rw [ppElems_eq]
            simp only [List.append_assoc]
            rw [skipWs_sp, skipWs_ppVal])]
      exact parseVal_pp v f ind _ (by simp [jsizeA] at hf; omega)
    rw [hval]
    show parseElemsTail f v (skipWs (ppElemsCont ind .nil ++ tail)) = _
    rw [ppElemsCont, List.nil_append, hskip]
    have hjv : 1 ≤ jsize v := by cases v <;> simp [jsize] <;> try omega
    obtain ⟨g, rfl⟩ : ∃ g, f = g + 1 := ⟨f - 1, by simp [jsizeA] at hf; omega⟩
    rw [parseElemsTail, if_neg (by decide), if_pos rfl]
  | v, .cons w ws, fuel, ind, tail, rest, hf, hskip => by
    obtain ⟨f, rfl⟩ : ∃ f, fuel = f + 1 := ⟨fuel - 1, by simp [jsizeA] at hf; omega⟩
    rw [parseElems]
    have hval : parseVal f (ppElems ind v (.cons w ws) ++ tail) =
        some (v, ppElemsCont ind (.cons w ws) ++ tail) := by
      rw [parseVal_congr f (ppElems ind v (.cons w ws) ++ tail)
        (ppVal ind v ++ (ppElemsCont ind (.cons w ws) ++ tail))
        (by rw [ppElems_eq]
            simp only [List.append_assoc]
            rw [skipWs_sp, skipWs_ppVal])]
      exact parseVal_pp v f ind _ (by simp [jsizeA] at hf; omega)
    rw [hval]
    show parseElemsTail f v (skipWs (ppElemsCont ind (.cons w ws) ++ tail)) = _
    rw [ppElemsCont]
    show parseElemsTail f v (skipWs (',' :: ('\n' :: ppElems ind w ws ++ tail))) = _
    rw [skipWs_cons_not _ _ (by decide)]
    obtain ⟨g, rfl⟩ : ∃ g, f = g + 1 := ⟨f - 1, by simp [jsizeA, jsize] at hf ⊢; omega⟩
    rw [parseElemsTail, if_pos rfl]
    have hcongr : parseElems g ('\n' :: ppElems ind w ws ++ tail) =
        parseElems g (ppElems ind w ws ++ tail) := by
      apply parseElems_congr
      rw [List.cons_append, skipWs_cons_ws _ _ (by decide)]
    rw [hcongr, parseElems_pp w ws g ind tail rest (by simp [jsizeA] at hf ⊢; omega) hskip]
    rfl
  termination_by v vs => 1 + sizeOf v + sizeOf vs
  decreasing_by all_goals (simp; try omega)

/-- Parsing inverts pretty-printing for nonempty member lists, given a
terminator that skips to the closing brace. -/
theorem parseMembers_pp : ∀ (k : String) (v : JVal) (kvs : JObj) (fuel ind : Nat)
    (tail rest : List Char),
    jsizeO (JObj.cons k v kvs) ≤ fuel → skipWs tail = rbr :: rest →
    parseMembers fuel (ppMembers ind k v kvs ++ tail) = some (JObj.cons k v kvs, rest)
  | k, v, .nil, fuel, ind, tail, rest, hf, hskip => by
    obtain ⟨f, rfl⟩ : ∃ f, fuel = f + 1 := ⟨fuel - 1, by simp [jsizeO] at hf; omega⟩
    rw [parseMembers]
    have hskipM : skipWs (ppMembers ind k v .nil ++ tail) =
        qu :: (escList k.data ++ qu :: ':' :: ' ' :: ppVal ind v ++
          (ppMembersCont ind .nil ++ tail)) := by
      rw [ppMembers_eq]
      simp only [List.append_assoc, List.cons_append]
      rw [skipWs_sp, skipWs_cons_not _ _ (by decide)]
      try simp
    rw [hskipM]
    obtain ⟨f2, rfl⟩ : ∃ f2, f = f2 + 1 := ⟨f - 1, by simp [jsizeO] at hf; omega⟩
    rw [parseMembersKey, if_pos rfl]
    have hkey : parseStringBody (escList k.data ++ qu :: ':' :: ' ' :: ppVal ind v ++
        (ppMembersCont ind .nil ++ tail)) =
        some (k.data, ':' :: ' ' :: ppVal ind v ++ (ppMembersCont ind .nil ++ tail)) := by
      rw [show (escList k.data ++ qu :: ':' :: ' ' :: ppVal ind v ++
        (ppMembersCont ind .nil ++ tail)) = (escList k.data ++ qu ::
        (':' :: ' ' :: ppVal ind v ++ (ppMembersCont ind .nil ++ tail))) from by simp,
        parseStringBody_escList]
      try simp
    rw [hkey]
    show parseMembersColon f2 k.data
      (skipWs (':' :: ' ' :: ppVal ind v ++ (ppMembersCont ind .nil ++ tail))) = _
    rw [show (':' :: ' ' :: ppVal ind v ++ (ppMembersCont ind .nil ++ tail)) =
      ':' :: (' ' :: ppVal ind v ++ (ppMembersCont ind .nil ++ tail)) from rfl,
      skipWs_cons_not _ _ (by decide)]
    obtain ⟨f3, rfl⟩ : ∃ f3, f2 = f3 + 1 := ⟨f2 - 1, by simp [jsizeO] at hf; omega⟩
    rw [parseMembersColon, if_pos rfl]
    have hval : parseVal f3 (' ' :: ppVal ind v ++ (ppMembersCont ind .nil ++ tail)) =
        some (v, ppMembersCont ind .nil ++ tail) := by
      rw [parseVal_congr f3 (' ' :: ppVal ind v ++ (ppMembersCont ind .nil ++ tail))
        (ppVal ind v ++ (ppMembersCont ind .nil ++ tail))
        (by rw [List.cons_append, skipWs_cons_ws _ _ (by decide), skipWs_ppVal])]
      exact parseVal_pp v f3 ind _ (by simp [jsizeO] at hf; omega)
    rw [hval]
    show parseMembersTail f3 k.data v (skipWs (ppMembersCont ind .nil ++ tail)) = _
    rw [ppMembersCont, List.nil_append, hskip]
    obtain ⟨f4, rfl⟩ : ∃ f4, f3 = f4 + 1 := ⟨f3 - 1, by simp [jsizeO] at hf; omega⟩
    rw [parseMembersTail, if_neg (by decide), if_pos rfl, string_mk_data]
  | k, v, .cons k2 v2 ks, fuel, ind, tail, rest, hf, hskip => by
    obtain ⟨f, rfl⟩ : ∃ f, fuel = f + 1 := ⟨fuel - 1, by simp [jsizeO] at hf; omega⟩
    rw [parseMembers]
    have hskipM : skipWs (ppMembers ind k v (.cons k2 v2 ks) ++ tail) =
        qu :: (escList k.data ++ qu :: ':' :: ' ' :: ppVal ind v ++
          (ppMembersCont ind (.cons k2 v2 ks) ++ tail)) := by
      rw [ppMembers_eq]
      simp only [List.append_assoc, List.cons_append]
      rw [skipWs_sp, skipWs_cons_not _ _ (by decide)]
      try simp
    rw [hskipM]
    obtain ⟨f2, rfl⟩ : ∃ f2, f = f2 + 1 := ⟨f - 1, by simp [jsizeO] at hf; omega⟩
    rw [parseMembersKey, if_pos rfl]
    have hkey : parseStringBody (escList k.data ++ qu :: ':' :: ' ' :: ppVal ind v ++
        (ppMembersCont ind (.cons k2 v2 ks) ++ tail)) =
        some (k.data, ':' :: ' ' :: ppVal ind v ++
          (ppMembersCont ind (.cons k2 v2 ks) ++ tail)) := by
      rw [show (escList k.data ++ qu :: ':' :: ' ' :: ppVal ind v ++
        (ppMembersCont ind (.cons k2 v2 ks) ++ tail)) = (escList k.data ++ qu ::
        (':' :: ' ' :: ppVal ind v ++ (ppMembersCont ind (.cons k2 v2 ks) ++ tail)))
        from by simp, parseStringBody_escList]
      try simp
    rw [hkey]
    show parseMembersColon f2 k.data
      (skipWs (':' :: ' ' :: ppVal ind v ++ (ppMembersCont ind (.cons k2 v2 ks) ++ tail))) = _
    rw [show (':' :: ' ' :: ppVal ind v ++ (ppMembersCont ind (.cons k2 v2 ks) ++ tail)) =
      ':' :: (' ' :: ppVal ind v ++ (ppMembersCont ind (.cons k2 v2 ks) ++ tail)) from rfl,
      skipWs_cons_not _ _ (by decide)]
    obtain ⟨f3, rfl⟩ : ∃ f3, f2 = f3 + 1 := ⟨f2 - 1, by simp [jsizeO] at hf; omega⟩
    rw [parseMembersColon, if_pos rfl]
    have hval : parseVal f3 (' ' :: ppVal ind v ++ (ppMembersCont ind (.cons k2 v2 ks) ++ tail)) =
        some (v, ppMembersCont ind (.cons k2 v2 ks) ++ tail) := by
      rw [parseVal_congr f3
        (' ' :: ppVal ind v ++ (ppMembersCont ind (.cons k2 v2 ks) ++ tail))
        (ppVal ind v ++ (ppMembersCont ind (.cons k2 v2 ks) ++ tail))
        (by rw [List.cons_append, skipWs_cons_ws _ _ (by decide), skipWs_ppVal])]
      exact parseVal_pp v f3 ind _ (by simp [jsizeO] at hf; omega)
    rw [hval]
    show parseMembersTail f3 k.data v
      (skipWs (ppMembersCont ind (.cons k2 v2 ks) ++ tail)) = _
    rw [ppMembersCont]
    show parseMembersTail f3 k.data v
      (skipWs (',' :: ('\n' :: ppMembers ind k2 v2 ks ++ tail))) = _
    rw [skipWs_cons_not _ _ (by decide)]
    obtain ⟨f4, rfl⟩ : ∃ f4, f3 = f4 + 1 := ⟨f3 - 1, by simp [jsizeO] at hf; omega⟩
    rw [parseMembersTail, if_pos rfl]
    have hcongr : parseMembers f4 ('\n' :: ppMembers ind k2 v2 ks ++ tail) =
        parseMembers f4 (ppMembers ind k2 v2 ks ++ tail) := by
      apply parseMembers_congr
      rw [List.cons_append, skipWs_cons_ws _ _ (by decide)]
    rw [hcongr, parseMembers_pp k2 v2 ks f4 ind tail rest
      (by simp [jsizeO] at hf ⊢; omega) hskip]
    rw [Option.map_some', string_mk_data]
  termination_by k v kvs => 1 + sizeOf v + sizeOf kvs
  decreasing_by all_goals (simp; try omega)

end
theorem sp_length (n : Nat) : (sp n).length = n := by simp [sp]

mutual

/-- The whole-document fuel `parseJsonText` supplies (input length plus one)
covers the fuel requirement of the printed value. -/
theorem jsize_le_ppVal : ∀ (ind : Nat) (v : JVal), jsize v ≤ (ppVal ind v).length + 1
  | ind, .null => by rw [ppVal]; simp [jsize]
  | ind, .bool true => by rw [ppVal]; simp [jsize]
  | ind, .bool false => by rw [ppVal]; simp [jsize]
  | ind, .str s => by rw [ppVal]; simp [jsize]
  | ind, .arr .nil => by rw [ppVal]; simp [jsize, jsizeA]
  | ind, .arr (.cons v vs) => by
    have h := jsizeA_le_ppElems (ind + 1) v vs (by omega)
    rw [ppVal, jsize]
    simp only [List.length_cons, List.length_append, sp_length, List.length_singleton]
    omega
  | ind, .obj .nil => by rw [ppVal]; simp [jsize, jsizeO]
  | ind, .obj (.cons k v kvs) => by
    have h := jsizeO_le_ppMembers (ind + 1) k v kvs (by omega)
    rw [ppVal, jsize]
    simp only [List.length_cons, List.length_append, sp_length, List.length_singleton]
    omega
  termination_by ind v => sizeOf v
  decreasing_by all_goals (simp; try omega)

/-- Fuel bound for printed element lists (at positive indentation). -/
theorem jsizeA_le_ppElems : ∀ (ind : Nat) (v : JVal) (vs : JArr), 1 ≤ ind →
    jsizeA (JArr.cons v vs) ≤ (ppElems ind v vs).length + 1
  | ind, v, .nil, hind => by
    have h := jsize_le_ppVal ind v
    rw [ppElems, jsizeA, jsizeA]
    simp only [List.length_append, sp_length]
    omega
  | ind, v, .cons w ws, hind => by
    have h1 := jsize_le_ppVal ind v
    have h2 := jsizeA_le_ppElems ind w ws hind
    rw [ppElems, jsizeA]
    simp only [List.length_append, sp_length, List.length_cons]
    simp only [jsizeA] at h2 ⊢
    omega
  termination_by ind v vs => 1 + sizeOf v + sizeOf vs
  decreasing_by all_goals (simp; try omega)

/-- Fuel bound for printed member lists (at positive indentation). -/
theorem jsizeO_le_ppMembers : ∀ (ind : Nat) (k : String) (v : JVal) (kvs : JObj), 1 ≤ ind →
    jsizeO (JObj.cons k v kvs) ≤ (ppMembers ind k v kvs).length + 1
  | ind, k, v, .nil, hind => by
    have h := jsize_le_ppVal ind v
    rw [ppMembers, jsizeO, jsizeO]
    simp only [List.length_append, sp_length, List.length_cons]
    omega
  | ind, k, v, .cons k2 v2 ks, hind => by
    have h1 := jsize_le_ppVal ind v
    have h2 := jsizeO_le_ppMembers ind k2 v2 ks hind
    rw [ppMembers, jsizeO]
    simp only [List.length_append, sp_length, List.length_cons]
    simp only [jsizeO] at h2 ⊢
    omega
  termination_by ind k v kvs => 1 + sizeOf v + sizeOf kvs
  decreasing_by all_goals (simp; try omega)

end
/-- Parsing the pretty-printed form of any JSON value recovers it exactly
(the serialize-then-deserialize identity of serde_json on this program's
documents). -/
theorem parse_jsonPretty (v : JVal) : parseJsonText (jsonPretty v) = some v := by
  have hparse : parseVal ((ppVal 0 v).length + 1) (ppVal 0 v) = some (v, []) := by
    have h := parseVal_pp v ((ppVal 0 v).length + 1) 0 [] (by
      have := jsize_le_ppVal 0 v
      omega)
    rw [List.append_nil] at h
    exact h
  have hunfold : parseJsonText (jsonPretty v) =
      (match parseVal ((ppVal 0 v).length + 1) (ppVal 0 v) with
       | some (w, rest) => if (skipWs rest).isEmpty then some w else none
       | none => none) := rfl
  rw [hunfold, hparse]
  rfl

/-- Claim C6: round-trip of the persisted catalog.  The file text written by
`save_package_list` for a catalog document (the pretty-printed JSON object
produced by the aggregator) parses back — through the same
`serde_json::from_str` step `install_packages` uses — to a structurally
identical mapping: the same manager keys in the same order, and for each
manager the same package names in the same order. -/
theorem claim_C6 (c : List (String × List String)) :
    parseJsonText (save_package_list ⟨true, jsonPretty (catalogDoc c)⟩) =
      some (catalogDoc c) := by
  rw [save_package_list]
  exact parse_jsonPretty (catalogDoc c)




end Sysbak
